import Mathlib

/-!
Verification of the script-to-graph compiler in
`caffe2/contrib/script/compiler.cc` (struct `DefCompiler` and
`CompilationUnitImpl`).

The C++ code builds protobuf `NetDef`/`OperatorDef`/`Argument` values by
in-place mutation through a stack of net pointers (`net_def_stack`).  The
shallow embedding below passes the compiler state (`CState`) explicitly:
the frame stack is realised by running each sub-graph lowering on an
emptied current-op list and re-assembling the nested net into the control
operation's argument afterwards, which produces the same final data and
the same fresh-name/environment threading as the pointer-based original.
Numeric literal payloads (`doubleValue` in the source) are modelled as
integers, since no claim depends on fractional values; `set_f` versus
`set_i` is tracked by which proto field of an `Argument` is populated.
Source positions attached to `ErrorReport` are dropped; the error text is
kept.
-/

namespace Caffe2Script

mutual
/-- Protobuf model: a `NetDef` is a name plus its ordered operator list, an
`OperatorDef` is type / inputs / outputs / arguments, and an `Argument` is a
name plus at most one populated payload field (`i`, `f`, `ints`, `floats`,
or a nested net `n`), exactly the fields touched by `compiler.cc`. -/
inductive NetDef where
  | mk (name : String) (ops : List OperatorDef)
inductive OperatorDef where
  | mk (type : String) (inputs : List String) (outputs : List String)
      (args : List Argument)
inductive Argument where
  | mk (name : String) (i : Option Int) (f : Option Int)
      (ints : List Int) (floats : List Int) (n : Option NetDef)
end

@[simp] def NetDef.name : NetDef → String
  | .mk nm _ => nm

@[simp] def NetDef.ops : NetDef → List OperatorDef
  | .mk _ os => os

@[simp] def OperatorDef.type : OperatorDef → String
  | .mk t _ _ _ => t

@[simp] def OperatorDef.inputs : OperatorDef → List String
  | .mk _ i _ _ => i

@[simp] def OperatorDef.outputs : OperatorDef → List String
  | .mk _ _ o _ => o

@[simp] def OperatorDef.args : OperatorDef → List Argument
  | .mk _ _ _ a => a

/-- Replace the output list of an operator (`set_output`/`add_output`/
`clear_output` all reduce to this). -/
@[simp] def OperatorDef.withOutputs : OperatorDef → List String → OperatorDef
  | .mk t i _ a, o => .mk t i o a

def Argument.name : Argument → String
  | .mk nm _ _ _ _ _ => nm

def Argument.n : Argument → Option NetDef
  | .mk _ _ _ _ _ nd => nd

/-- Operator-token kinds dispatched by `operatorName` and the big operator
case of `emit` ('+', '-', '*', '/', TK_NE, TK_EQ, '<', '>', TK_LE, TK_GE,
TK_IF_EXPR, TK_AND, TK_OR, TK_NOT). -/
inductive TKind where
  | plus
  | minus
  | star
  | slash
  | tkNe
  | tkEq
  | tkLt
  | tkGt
  | tkLe
  | tkGe
  | tkIfExpr
  | tkAnd
  | tkOr
  | tkNot
deriving DecidableEq

/-- Cast-target type tokens (TK_INT, TK_FLOAT, TK_LONG, TK_BOOL). -/
inductive TypeTok where
  | tkInt
  | tkFloat
  | tkLong
  | tkBool

/-- AST trees as read by `DefCompiler`.  Expression statements, `if`,
`while` and assignments are trees too, dispatched by kind exactly as in
`emitStatements`.  An assignment's `reduction` is `none` for `'='` and
`some k` for a compound reduction token `k`; its targets are the `Ident`
names of `stmt.idents()`.  A call's keyword arguments are (name, value
tree) pairs. -/
inductive Tree where
  | ident (name : String)
  | konst (value : Int) (typeIdent : String)
  | comp (kind : TKind) (subtrees : List Tree)
  | apply (fn : String) (inputs : List Tree) (attributes : List (String × Tree))
  | cast (ty : TypeTok) (input : Tree)
  | list (elems : List Tree)
  | ifStmt (cond : Tree) (trueBranch : List Tree) (falseBranch : List Tree)
  | whileStmt (cond : Tree) (body : List Tree)
  | assign (idents : List String) (reduction : Option TKind) (rhs : Tree)

/-- Errors: `ErrorReport` (with its message text, source range dropped) or
`std::runtime_error`. -/
inductive Err where
  | report (msg : String)
  | runtime (msg : String)
deriving DecidableEq

/-- Compiler state: the environment map (name in Def to name in NetDef,
most recent binding first), the fresh-name counter `next_fresh`, and the
operator list of the currently active net (top of `net_def_stack`). -/
structure CState where
  env : List (String × String)
  nextFresh : Nat
  curOps : List OperatorDef

/-- Result of a stateful compiler step; the state is kept on error just as
the C++ exception leaves the partially mutated protos behind. -/
inductive Res (α : Type) where
  | ok (a : α) (s : CState)
  | err (e : Err) (s : CState)

/-- Association-list lookup used for the environment (`env.count` /
`env[...]`) and for the function registry of the compilation unit. -/
def alookup {α : Type} : List (String × α) → String → Option α
  | [], _ => none
  | (a, b) :: rest, k => if a = k then some b else alookup rest k

/-- `map(name, value)`: insert/overwrite the environment binding. -/
def envInsert (l : List (String × String)) (name value : String) :
    List (String × String) :=
  (name, value) :: l

/-- Fresh names are `"$t" ++ to_string(next_fresh)`. -/
def freshName (n : Nat) : String :=
  "$t" ++ toString n

/-- Replace the last element of a list (models mutating, through its
pointer, an operator that has already been appended to the current net). -/
def modifyLast {α : Type} (f : α → α) : List α → List α
  | [] => []
  | [a] => [f a]
  | a :: b :: rest => a :: modifyLast f (b :: rest)

/-- `operatorName`: fixed operator-token to Caffe2 operator-type table;
arity distinguishes unary `Negative` from binary `Sub`.  The C++ default
branch (unknown kind) is unreachable because `TKind` is closed. -/
def operatorName (kind : TKind) (ninputs : Nat) : String :=
  match kind with
  | .plus => "Add"
  | .minus => if ninputs = 1 then "Negative" else "Sub"
  | .star => "Mul"
  | .slash => "Div"
  | .tkNe => "NE"
  | .tkEq => "EQ"
  | .tkLt => "LT"
  | .tkGt => "GT"
  | .tkLe => "LE"
  | .tkGe => "GE"
  | .tkIfExpr => "Conditional"
  | .tkAnd => "And"
  | .tkOr => "Or"
  | .tkNot => "Not"

/-- `getType`: cast-token to `TensorProto_DataType` table.  The numeric
values are the caffe2 proto enum values (external schema).  The C++
default branch is unreachable because `TypeTok` is closed. -/
def getType (ty : TypeTok) : Int :=
  match ty with
  | .tkInt => 2
  | .tkFloat => 1
  | .tkLong => 10
  | .tkBool => 5

/-- `fillArg`: encode one keyword argument.  A `TK_CONST` value fills `f`
or `i` according to the literal suffix; a `TK_LIST` value appends each
element to `floats` or `ints`; any other value kind is silently ignored
(the C++ switch has no default case), leaving an argument with only its
name set. -/
def fillArg (name : String) (value : Tree) : Argument :=
  match value with
  | .konst v suffix =>
      if suffix = "f" then .mk name none (some v) [] [] none
      else .mk name (some v) none [] [] none
  | .list elems =>
      let step := fun (acc : List Int × List Int) (t : Tree) =>
        match t with
        | .konst v suffix =>
            if suffix = "f" then (acc.1 ++ [v], acc.2)
            else (acc.1, acc.2 ++ [v])
        | _ => acc
      let res := elems.foldl step ([], [])
      .mk name none none res.2 res.1 none
  | _ => .mk name none none [] [] none

/-- The `broadcast` argument attached to every operator-expression op. -/
def broadcastArg : Argument :=
  .mk "broadcast" (some 1) none [] [] none

/-- Build an argument holding a nested sub-net (`add_arg` + `mutable_n`). -/
def netArg (name : String) (nd : NetDef) : Argument :=
  .mk name none none [] [] (some nd)

/-- `emitConst`: a `ConstantFill` op with `dtype`, `value` and a
single-element `shape`, writing `output`.  Unknown literal suffixes raise
`std::runtime_error`. -/
def emitConst (v : Int) (output : String) (typeIdent : String)
    (s : CState) : Res OperatorDef :=
  let mk := fun (dtype : Int) (valArg : Argument) =>
    let op := OperatorDef.mk "ConstantFill" [] [output]
      [Argument.mk "dtype" (some dtype) none [] [] none,
       valArg,
       Argument.mk "shape" none none [1] [] none]
    Res.ok op { s with curOps := s.curOps ++ [op] }
  if typeIdent = "f" then
    mk 1 (Argument.mk "value" none (some v) [] [] none)
  else if typeIdent = "LL" then
    mk 10 (Argument.mk "value" (some v) none [] [] none)
  else if typeIdent = "b" then
    mk 5 (Argument.mk "value" (some (if v ≠ 0 then 1 else 0)) none [] [] none)
  else if typeIdent = "i" then
    mk 2 (Argument.mk "value" (some v) none [] [] none)
  else
    Res.err (.runtime ("unknown type_ident " ++ typeIdent)) s

/-- `lookup`: resolve an identifier in the environment or raise
"undefined value". -/
def lookupVar (name : String) (s : CState) : Res String :=
  match alookup s.env name with
  | some v => Res.ok v s
  | none => Res.err (.report ("undefined value " ++ name)) s

/-- The attribute scan of `emitFillOp`: walk the keyword arguments in
order, record whether a `shape` attribute is present, and raise
"Unrecognized attribute" at the first argument with any other name. -/
def checkFillAttrs (builtinType : String) :
    List (String × Tree) → CState → Res Bool
  | [], s => Res.ok false s
  | (nm, _) :: rest, s =>
      if nm = "shape" then
        match checkFillAttrs builtinType rest s with
        | .ok _ s1 => Res.ok true s1
        | .err e s1 => Res.err e s1
      else
        Res.err (.report ("Unrecognized attribute " ++ nm ++ " for built-in "
          ++ builtinType)) s

/-- First element of an argument-list, used for
`apply.attributes()[0]` in `emitFillOp` (only reached when the list is
known non-empty). -/
def headAttr (attrs : List (String × Tree)) : String × Tree :=
  attrs.headD ("", Tree.list [])

/-- Whether `p` is a prefix of `s`, on character lists. -/
def charsPrefixEq : List Char → List Char → Bool
  | [], _ => true
  | _ :: _, [] => false
  | a :: as, b :: bs => a = b && charsPrefixEq as bs

/-- Whether `p` occurs as a contiguous substring of `s`
(`std::string::find(p) != npos`). -/
def charsInfix (p : List Char) : List Char → Bool
  | [] => p.isEmpty
  | s@(_ :: t) => charsPrefixEq p s || charsInfix p t

/-- The operator built by `emitFillOp` once its arity checks have passed:
a `ConstantFill` with either the sole lowered operand as input plus an
`input_as_shape` flag (0 for the `_like` forms, which use the operand's
shape, 1 otherwise, which uses its values), or, with no operand, the first
keyword argument (`shape`) copied via `fillArg`; then a `value` attribute
of 1.0 for the `ones` variants and 0.0 otherwise, and one fresh output. -/
def fillOpCore (builtinType : String) (values : List String)
    (attributes : List (String × Tree)) (s : CState) : Res OperatorDef :=
  let inputPart : List String × List Argument :=
    match values with
    | v :: _ => ([v],
        [Argument.mk "input_as_shape"
          (some (if charsInfix "_like".data builtinType.data then 0 else 1))
          none [] [] none])
    | [] => ([], [fillArg (headAttr attributes).1 (headAttr attributes).2])
  let valueArg := Argument.mk "value" none
      (some (if charsInfix "ones".data builtinType.data then 1 else 0)) [] [] none
  let op := OperatorDef.mk "ConstantFill" inputPart.1 [freshName s.nextFresh]
      (inputPart.2 ++ [valueArg])
  Res.ok op { s with nextFresh := s.nextFresh + 1, curOps := s.curOps ++ [op] }

mutual
/-- `emit`: lower one expression tree, appending its operations to the
current net and returning the operator that produces its value.  An
identifier emits a `Copy` of its current binding to a fresh name; an
operator expression lowers its operands first and emits one op from the
`operatorName` table with a `broadcast` = 1 attribute and a fresh output;
a call dispatches to `emitFillOp` for the four built-ins and otherwise
emits a generic op named after the call target with one input per lowered
operand, one fresh output and one `fillArg`-encoded attribute per keyword
argument; a cast emits a `Cast` with a `to` attribute; a literal emits a
`ConstantFill` at a fresh name.  Statement kinds and raw lists fall to the
C++ default branch, "NYI" (the tree printed in the C++ message is
dropped). -/
def emit : Tree → CState → Res OperatorDef
  | .ident name, s =>
      (match lookupVar name s with
       | .err e s1 => .err e s1
       | .ok v s1 =>
          let op := OperatorDef.mk "Copy" [v] [freshName s1.nextFresh] []
          .ok op { s1 with nextFresh := s1.nextFresh + 1,
                           curOps := s1.curOps ++ [op] })
  | .comp kind subtrees, s =>
      (match getValues subtrees s with
       | .err e s1 => .err e s1
       | .ok values s1 =>
          let op := OperatorDef.mk (operatorName kind subtrees.length) values
            [freshName s1.nextFresh] [broadcastArg]
          .ok op { s1 with nextFresh := s1.nextFresh + 1,
                           curOps := s1.curOps ++ [op] })
  | .apply fn inputs attributes, s =>
      if fn = "zeros" ∨ fn = "zeros_like" ∨ fn = "ones" ∨ fn = "ones_like" then
        emitFillOp fn inputs attributes s
      else
        (match getValues inputs s with
         | .err e s1 => .err e s1
         | .ok values s1 =>
            let op := OperatorDef.mk fn values [freshName s1.nextFresh]
              (attributes.map (fun a => fillArg a.1 a.2))
            .ok op { s1 with nextFresh := s1.nextFresh + 1,
                             curOps := s1.curOps ++ [op] })
  | .cast ty input, s =>
      (match getValue input s with
       | .err e s1 => .err e s1
       | .ok v s1 =>
          let op := OperatorDef.mk "Cast" [v] [freshName s1.nextFresh]
            [Argument.mk "to" (some (getType ty)) none [] [] none]
          .ok op { s1 with nextFresh := s1.nextFresh + 1,
                           curOps := s1.curOps ++ [op] })
  | .konst v suffix, s =>
      emitConst v (freshName s.nextFresh) suffix
        { s with nextFresh := s.nextFresh + 1 }
  | _, s => Res.err (.report "NYI: ") s
termination_by t s => (sizeOf t, 1)

/-- `getValue`: name of the value of an expression in a consumed operand
position.  A bare identifier resolves directly through the environment
(no operation is emitted); anything else is lowered via `emit` and yields
that operator's first output. -/
def getValue : Tree → CState → Res String
  | .ident name, s => lookupVar name s
  | t, s =>
      (match emit t s with
       | .err e s1 => .err e s1
       | .ok op s1 => .ok (op.outputs.headD "") s1)
termination_by t s => (sizeOf t, 2)

/-- `getValues`: lower a list of operand trees left to right. -/
def getValues : List Tree → CState → Res (List String)
  | [], s => .ok [] s
  | t :: ts, s =>
      (match getValue t s with
       | .err e s1 => .err e s1
       | .ok v s1 =>
          match getValues ts s1 with
          | .err e s2 => .err e s2
          | .ok vs s2 => .ok (v :: vs) s2)
termination_by ts s => (sizeOf ts, 0)

/-- `emitFillOp`: the intrinsic handler for `zeros`, `ones`, `zeros_like`
and `ones_like`.  More than one operand is an arity error; any keyword
argument not named `shape` is an unrecognized-attribute error; `zeros` and
`ones` then require an operand or a `shape` attribute (note: the C++ test
`values.size() != 1 && !has_shape` rejects only when *neither* is present,
so one operand *plus* a `shape` attribute is accepted, with the attribute
ignored by `fillOpCore`); the `_like` forms require exactly one operand. -/
def emitFillOp (builtinType : String) (inputs : List Tree)
    (attributes : List (String × Tree)) (s : CState) : Res OperatorDef :=
  match getValues inputs s with
  | .err e s1 => .err e s1
  | .ok values s1 =>
      if values.length > 1 then
        .err (.report ("Built-in " ++ builtinType ++ " accepts 0 or 1 inputs."))
          s1
      else
        match checkFillAttrs builtinType attributes s1 with
        | .err e s2 => .err e s2
        | .ok hasShape s2 =>
            if builtinType = "zeros" ∨ builtinType = "ones" then
              if values.length ≠ 1 ∧ hasShape = false then
                .err (.report ("Built-in " ++ builtinType ++
                  " requires either 1 input or 1 shape attribute")) s2
              else
                fillOpCore builtinType values attributes s2
            else
              if values.length ≠ 1 then
                .err (.report ("Built-in " ++ builtinType ++
                  " requires 1 input")) s2
              else
                fillOpCore builtinType values attributes s2
termination_by (sizeOf inputs, 2)
end

/-- The per-target loop of `emitAssignment`: each target named `_` gets a
fresh name (so that two uses do not unintentionally interfere), every
other target uses its own identifier text; in both cases the identifier is
(re)bound in the environment to the chosen name, in target order. -/
def targetNames : List String → CState → Res (List String)
  | [], s => Res.ok [] s
  | id :: rest, s =>
      let name := if id = "_" then freshName s.nextFresh else id
      let s1 : CState :=
        { s with
          nextFresh := if id = "_" then s.nextFresh + 1 else s.nextFresh,
          env := envInsert s.env id name }
      match targetNames rest s1 with
      | .ok names s2 => Res.ok (name :: names) s2
      | .err e s2 => Res.err e s2

/-- Widen an operator's output list with empty outputs until it is at
least as long as the target list (` while (op->output_size() < ...)
op->add_output()`), then overwrite position `i` with the `i`-th target
name (`op->set_output(i, name)`). -/
def widenSet (outs names : List String) : List String :=
  let widened := outs ++ List.replicate (names.length - outs.length) ""
  names ++ widened.drop names.length

/-- `emitAssignment`.  A compound reduction requires exactly one target;
the source rewrites it to `Compound(reduction, {lhs, rhs})` and re-enters
`emit`, which is inlined here: `emit` on that operator tree resolves the
lhs identifier through the environment (emitting nothing, via `getValue`),
lowers `rhs`, and emits one op from the `operatorName` table with a
`broadcast` = 1 attribute and a fresh output.  A plain assignment lowers
only `rhs`.  The produced operator's outputs are then widened and
overwritten with the target names from `targetNames`. -/
def emitAssignment (idents : List String) (reduction : Option TKind)
    (rhs : Tree) (s : CState) : Res Unit :=
  let emitted : Res OperatorDef :=
    match reduction with
    | some kind =>
        if idents.length ≠ 1 then
          Res.err (.report ("reductions are only allow when there is a " ++
            "single variable on the left-hand side.")) s
        else
          match lookupVar (idents.headD "") s with
          | .err e s1 => Res.err e s1
          | .ok v1 s1 =>
              match getValue rhs s1 with
              | .err e s2 => Res.err e s2
              | .ok v2 s2 =>
                  let op := OperatorDef.mk (operatorName kind 2) [v1, v2]
                    [freshName s2.nextFresh] [broadcastArg]
                  Res.ok op { s2 with nextFresh := s2.nextFresh + 1,
                                      curOps := s2.curOps ++ [op] }
    | none => emit rhs s
  match emitted with
  | .err e s1 => Res.err e s1
  | .ok _ s1 =>
      match targetNames idents s1 with
      | .err e s2 => Res.err e s2
      | .ok names s2 =>
          Res.ok () { s2 with
            curOps := modifyLast (fun o => o.withOutputs
              (widenSet o.outputs names)) s2.curOps }

/-- `emitExpressionStatement`: lower the expression and clear the declared
outputs of the produced operator (`r->clear_output()`). -/
def emitExpressionStatement (stmt : Tree) (s : CState) : Res Unit :=
  match emit stmt s with
  | .err e s1 => Res.err e s1
  | .ok _ s1 =>
      Res.ok () { s1 with
        curOps := modifyLast (fun o => o.withOutputs []) s1.curOps }

mutual
/-- `emitStatements`: lower a statement list in order, dispatching on the
tree kind as the C++ switch does. -/
def emitStatements : List Tree → CState → Res Unit
  | [], s => Res.ok () s
  | stmt :: rest, s =>
      (match emitStatement stmt s with
       | .err e s1 => Res.err e s1
       | .ok _ s1 => emitStatements rest s1)
termination_by l _ => (sizeOf l, 1)

/-- One iteration of the `emitStatements` switch. -/
def emitStatement : Tree → CState → Res Unit
  | .ifStmt cond tb fb, s => emitIf cond tb fb s
  | .whileStmt cond body, s => emitWhile cond body s
  | .assign idents reduction rhs, s => emitAssignment idents reduction rhs s
  | stmt, s => emitExpressionStatement stmt s
termination_by stmt _ => (sizeOf stmt, 2)

/-- `emitIf`: lower the condition in the enclosing net, then emit one `If`
operation with the condition value as sole input, a `then_net` sub-net
holding the lowered true branch, and, when the false branch is non-empty,
an `else_net` sub-net holding the lowered false branch.  The sub-net
lowerings run on the same environment and fresh counter (only the active
net changes). -/
def emitIf (cond : Tree) (tb fb : List Tree) (s : CState) : Res Unit :=
  match getValue cond s with
  | .err e s1 => Res.err e s1
  | .ok c s1 =>
      match emitStatements tb { s1 with curOps := [] } with
      | .err e s2 => Res.err e { s2 with curOps := s1.curOps }
      | .ok _ s2 =>
          if fb.length > 0 then
            match emitStatements fb { s2 with curOps := [] } with
            | .err e s3 => Res.err e { s3 with curOps := s1.curOps }
            | .ok _ s3 =>
                let op := OperatorDef.mk "If" [c] []
                  [netArg "then_net" (NetDef.mk "" s2.curOps),
                   netArg "else_net" (NetDef.mk "" s3.curOps)]
                Res.ok () { s3 with curOps := s1.curOps ++ [op] }
          else
            let op := OperatorDef.mk "If" [c] []
              [netArg "then_net" (NetDef.mk "" s2.curOps)]
            Res.ok () { s2 with curOps := s1.curOps ++ [op] }
termination_by (sizeOf cond + sizeOf tb + sizeOf fb, 0)
decreasing_by
  all_goals
    (simp_wf
     exact Prod.Lex.left _ _ (by
       have h1 : 0 < sizeOf cond := by cases cond <;> simp_arith
       have h2 : 0 < sizeOf tb := by cases tb <;> simp_arith
       have h3 : 0 < sizeOf fb := by cases fb <;> simp_arith
       omega))

/-- `emitWhile`: allocate a fresh loop-control variable, emit a
constant-zero int32 binding for it before the loop operation (so the
control input has a prior definition), lower the condition into a
`cond_net` sub-net and overwrite the final condition operator's first
output with the loop-control name, then emit one `While` operation whose
declared input is the loop-control name, carrying the `cond_net` and the
lowered-body `loop_net` sub-nets. -/
def emitWhile (cond : Tree) (body : List Tree) (s : CState) : Res Unit :=
  let loopVar := freshName s.nextFresh
  let s0 : CState := { s with nextFresh := s.nextFresh + 1 }
  match emitConst 0 loopVar "i" s0 with
  | .err e s1 => Res.err e s1
  | .ok _ s1 =>
      match emit cond { s1 with curOps := [] } with
      | .err e s2 => Res.err e { s2 with curOps := s1.curOps }
      | .ok _ s2 =>
          let condOps := modifyLast
            (fun o => o.withOutputs (o.outputs.set 0 loopVar)) s2.curOps
          match emitStatements body { s2 with curOps := [] } with
          | .err e s3 => Res.err e { s3 with curOps := s1.curOps }
          | .ok _ s3 =>
              let op := OperatorDef.mk "While" [loopVar] []
                [netArg "cond_net" (NetDef.mk "" condOps),
                 netArg "loop_net" (NetDef.mk "" s3.curOps)]
              Res.ok () { s3 with curOps := s1.curOps ++ [op] }
termination_by (sizeOf cond + sizeOf body, 0)
decreasing_by
  all_goals
    (simp_wf
     exact Prod.Lex.left _ _ (by
       have h1 : 0 < sizeOf cond := by cases cond <;> simp_arith
       have h2 : 0 < sizeOf body := by cases body <;> simp_arith
       omega))
end

/-- A function definition as consumed by `DefCompiler::run`: name,
parameter names, return names, body statements. -/
structure Def where
  name : String
  params : List String
  returns : List String
  statements : List Tree

/-- Identity-bind a list of names in the environment (`map(name, name)`
for params and returns in `run`). -/
def bindSelf : List String → CState → CState
  | [], s => s
  | n :: rest, s => bindSelf rest { s with env := envInsert s.env n n }

/-- `DefCompiler::run`: pre-bind parameters and returns under their own
names, then lower the body (the net name is set by the caller when the
final `NetDef` is assembled). -/
def runDef (d : Def) (s : CState) : Res Unit :=
  emitStatements d.statements (bindSelf d.returns (bindSelf d.params s))

/-- The initial compiler state for one function. -/
def initState : CState :=
  { env := [], nextFresh := 0, curOps := [] }

/-- `CompilationUnitImpl::defineFunction`: reject a name already present
in the registry; otherwise the registry entry is created (emplaced) before
compilation starts and the compiler mutates it in place, so the entry
remains, holding the partially built net, even when compilation fails.
Returns the raised error (if any) and the updated registry. -/
def defineFunction (functions : List (String × NetDef)) (d : Def) :
    Option Err × List (String × NetDef) :=
  if (alookup functions d.name).isSome then
    (some (.report (d.name ++ " already defined.")), functions)
  else
    match runDef d initState with
    | .ok _ s => (none, functions ++ [(d.name, NetDef.mk d.name s.curOps)])
    | .err e s => (some e, functions ++ [(d.name, NetDef.mk d.name s.curOps)])

/-- `CompilationUnitImpl::define` over an already-parsed list of function
definitions: define each in order, aborting at the first error (the C++
exception propagates out of the parse loop). -/
def defineAll (functions : List (String × NetDef)) :
    List Def → Option Err × List (String × NetDef)
  | [] => (none, functions)
  | d :: rest =>
      match defineFunction functions d with
      | (some e, fns) => (some e, fns)
      | (none, fns) => defineAll fns rest

/-- The operator list produced by compiling one function from a fresh
state (the contents of the registry entry made for it, successful or
not). -/
def compileOps (d : Def) : List OperatorDef :=
  match runDef d initState with
  | .ok _ s => s.curOps
  | .err _ s => s.curOps

/-- Numeric value of a decimal digit character. -/
def digitVal (c : Char) : Nat :=
  c.toNat - 48

/-- Big-endian decimal value of a digit string, folded onto `a`. -/
def parseDigits (a : Nat) (cs : List Char) : Nat :=
  cs.foldl (fun acc c => acc * 10 + digitVal c) a

/-- Decode a generated fresh name: strings of the reserved shape
`"$t" ++ digits` yield the digits' value, anything else `none`.  Names an
operation declares that decode are its fresh-format outputs. -/
def freshIdx? (s : String) : Option Nat :=
  match s.data with
  | '$' :: 't' :: rest => some (parseDigits 0 rest)
  | _ => none

/-- Semantic value of the digit stream `toDigitsCore` produces for `n`
after an already-accumulated prefix value `a`. -/
def pushDigits (a : Nat) (n : Nat) : Nat :=
  if h : n < 10 then a * 10 + n
  else pushDigits a (n / 10) * 10 + n % 10
termination_by n
decreasing_by
  simp_wf
  exact Nat.div_lt_self (by omega) (by omega)

/-- A user identifier is plain when it does not decode as a generated
fresh name (the reserved `$t` prefix is not valid user syntax; see the
spec's reserved-prefix note). -/
def plainName (id : String) : Bool :=
  (freshIdx? id).isNone

/-- Whether every argument of an operator carries no nested sub-net
(true for every operator built by `emit` itself; only the `If`/`While`
control operations carry sub-nets). -/
def argsNoNets : List Argument → Bool
  | [] => true
  | a :: rest => a.n.isNone && argsNoNets rest

mutual
/-- All output names declared by a list of operations, including every
operation of every nested sub-net. -/
def opsOutNames : List OperatorDef → List String
  | [] => []
  | op :: rest => opOutNames op ++ opsOutNames rest
def opOutNames : OperatorDef → List String
  | .mk _ _ outs args => outs ++ argsOutNames args
def argsOutNames : List Argument → List String
  | [] => []
  | a :: rest => argOutNames a ++ argsOutNames rest
def argOutNames : Argument → List String
  | .mk _ _ _ _ _ (some (.mk _ ops)) => opsOutNames ops
  | .mk _ _ _ _ _ none => []
end

mutual
/-- Decoded indices of all fresh-format output names declared by a list of
operations, including nested sub-nets, but excluding the final operation
of each `cond_net` sub-graph (whose output a `While` lowering overwrites
with the loop-control name that the loop initializer already declares). -/
def opsFOutExcl : List OperatorDef → List Nat
  | [] => []
  | op :: rest => opFOutExcl op ++ opsFOutExcl rest
/-- As `opsFOutExcl`, dropping the last operation of the list. -/
def opsFOutExclInit : List OperatorDef → List Nat
  | [] => []
  | [_] => []
  | op :: rest₁ :: rest => opFOutExcl op ++ opsFOutExclInit (rest₁ :: rest)
def opFOutExcl : OperatorDef → List Nat
  | .mk _ _ outs args => outs.filterMap freshIdx? ++ argsFOutExcl args
def argsFOutExcl : List Argument → List Nat
  | [] => []
  | a :: rest => argFOutExcl a ++ argsFOutExcl rest
def argFOutExcl : Argument → List Nat
  | .mk nm _ _ _ _ (some (.mk _ ops)) =>
      if nm = "cond_net" then opsFOutExclInit ops else opsFOutExcl ops
  | .mk _ _ _ _ _ none => []
end

mutual
/-- Whether every assignment target in a statement tree, other than the
discard identifier, is a plain (non-fresh-format) name. -/
def noFreshTargets : Tree → Bool
  | .assign ids _ _ => ids.all (fun i => i = "_" || plainName i)
  | .ifStmt _ tb fb => noFreshTargetsList tb && noFreshTargetsList fb
  | .whileStmt _ body => noFreshTargetsList body
  | _ => true
/-- `noFreshTargets` over a statement list. -/
def noFreshTargetsList : List Tree → Bool
  | [] => true
  | t :: ts => noFreshTargets t && noFreshTargetsList ts
end

/-- A strictly increasing list of numbers all within `[lo, hi)`. -/
def IncIn (l : List Nat) (lo hi : Nat) : Prop :=
  l.Chain' (· < ·) ∧ ∀ i ∈ l, lo ≤ i ∧ i < hi


theorem digitChar_toNat (m : Nat) (h : m < 10) : (Nat.digitChar m).toNat = m + 48 := by
  interval_cases m <;> rfl

theorem parseDigits_cons (a : Nat) (c : Char) (cs : List Char) :
    parseDigits a (c :: cs) = parseDigits (a * 10 + digitVal c) cs := rfl

theorem parseDigits_toDigitsCore (fuel : Nat) :
    ∀ (n : Nat) (ds : List Char) (a : Nat), n < fuel →
    parseDigits a (Nat.toDigitsCore 10 fuel n ds) = parseDigits (pushDigits a n) ds := by
  induction fuel with
  | zero => intro n ds a h; omega
  | succ fuel ih =>
      intro n ds a h
      rw [Nat.toDigitsCore]
      by_cases h10 : n / 10 = 0
      · have hn : n < 10 := by omega
        simp only [h10, if_true, eq_self_iff_true]
        rw [parseDigits_cons]
        rw [pushDigits, dif_pos hn]
        have hd : digitVal (Nat.digitChar (n % 10)) = n % 10 := by
          rw [digitVal, digitChar_toNat (n % 10) (by omega)]; omega
        rw [hd, Nat.mod_eq_of_lt hn]
      · simp only [h10, if_false, eq_self_iff_true]
        rw [ih (n / 10) _ a (by omega)]
        rw [parseDigits_cons]
        have hd : digitVal (Nat.digitChar (n % 10)) = n % 10 := by
          rw [digitVal, digitChar_toNat (n % 10) (by omega)]; omega
        rw [hd]
        conv_rhs => rw [pushDigits]
        rw [dif_neg (by omega : ¬ n < 10)]

theorem pushDigits_zero (n : Nat) : pushDigits 0 n = n := by
  induction n using Nat.strong_induction_on with
  | _ n ih =>
      rw [pushDigits]
      by_cases h : n < 10
      · rw [dif_pos h]; omega
      · rw [dif_neg h]
        rw [ih (n / 10) (Nat.div_lt_self (by omega) (by omega))]
        omega

theorem parseDigits_repr (n : Nat) : parseDigits 0 (Nat.repr n).data = n := by
  have h1 : (Nat.repr n).data = Nat.toDigits 10 n := rfl
  rw [h1, Nat.toDigits, parseDigits_toDigitsCore (n + 1) n [] 0 (by omega)]
  rw [parseDigits, List.foldl_nil, pushDigits_zero]

theorem freshIdx_freshName (n : Nat) : freshIdx? (freshName n) = some n := by
  have hts : toString n = Nat.repr n := rfl
  have hdata : (freshName n).data = '$' :: 't' :: (Nat.repr n).data := by
    rw [freshName, String.data_append, hts]
    rfl
  rw [freshIdx?, hdata]
  simp [parseDigits_repr]



theorem incIn_nil (lo hi : Nat) : IncIn [] lo hi :=
  ⟨List.chain'_nil, by simp⟩

theorem incIn_single (k lo hi : Nat) (h1 : lo ≤ k) (h2 : k < hi) :
    IncIn [k] lo hi :=
  ⟨List.chain'_singleton k, by simp; omega⟩

theorem incIn_append {l1 l2 : List Nat} {lo mid hi : Nat}
    (h1 : IncIn l1 lo mid) (h2 : IncIn l2 mid hi)
    (hlm : lo ≤ mid) (hmh : mid ≤ hi) : IncIn (l1 ++ l2) lo hi := by
  constructor
  · apply List.chain'_append.2
    refine ⟨h1.1, h2.1, ?_⟩
    intro x hx y hy
    have hxm := (h1.2 x (List.mem_of_mem_getLast? hx)).2
    have hym := (h2.2 y (List.mem_of_mem_head? hy)).1
    omega
  · intro i hmem
    rcases List.mem_append.1 hmem with hin | hin
    · have := h1.2 i hin
      omega
    · have := h2.2 i hin
      omega

theorem incIn_mono {l : List Nat} {lo hi lo' hi' : Nat} (h : IncIn l lo hi)
    (h1 : lo' ≤ lo) (h2 : hi ≤ hi') : IncIn l lo' hi' := by
  refine ⟨h.1, fun i hin => ?_⟩
  have := h.2 i hin
  omega

theorem incIn_dropLast {l1 : List Nat} {k lo hi : Nat}
    (h : IncIn (l1 ++ [k]) lo hi) : IncIn l1 lo hi := by
  refine ⟨h.1.sublist (List.sublist_append_left l1 [k]), fun i hin => ?_⟩
  exact h.2 i (List.mem_append.2 (Or.inl hin))

theorem incIn_pairwise_ne {l : List Nat} {lo hi : Nat} (h : IncIn l lo hi) :
    l.Pairwise (fun a b => a ≠ b) := by
  exact (List.chain'_iff_pairwise.1 h.1).imp (fun hlt => Nat.ne_of_lt hlt)

theorem opsFOutExcl_append (l1 l2 : List OperatorDef) :
    opsFOutExcl (l1 ++ l2) = opsFOutExcl l1 ++ opsFOutExcl l2 := by
  induction l1 with
  | nil => simp [opsFOutExcl]
  | cons op rest ih => simp [opsFOutExcl, ih]

theorem argFOutExcl_none (a : Argument) (h : a.n.isNone = true) :
    argFOutExcl a = [] := by
  cases a with
  | mk nm i f ints floats nd =>
      cases nd with
      | none => rfl
      | some sub =>
          rw [Argument.n] at h
          simp at h

theorem argsFOutExcl_noNets (args : List Argument)
    (h : argsNoNets args = true) : argsFOutExcl args = [] := by
  induction args with
  | nil => rfl
  | cons a rest ih =>
      rw [argsNoNets, Bool.and_eq_true] at h
      rw [argsFOutExcl, argFOutExcl_none a h.1, ih h.2]
      rfl

theorem opFOutExcl_noNets (op : OperatorDef) (h : argsNoNets op.args = true) :
    opFOutExcl op = op.outputs.filterMap freshIdx? := by
  cases op with
  | mk t i o a =>
      rw [opFOutExcl]
      rw [OperatorDef.args] at h
      rw [argsFOutExcl_noNets a h]
      simp

theorem opsFOutExcl_singleton (op : OperatorDef) :
    opsFOutExcl [op] = opFOutExcl op := by
  rw [opsFOutExcl, opsFOutExcl]
  simp

theorem opsFOutExclInit_append_last (l : List OperatorDef) (op : OperatorDef) :
    opsFOutExclInit (l ++ [op]) = opsFOutExcl l := by
  induction l with
  | nil => rfl
  | cons a rest ih =>
      cases rest with
      | nil => simp [opsFOutExclInit, opsFOutExcl]
      | cons b rest2 =>
          simp only [List.cons_append] at ih ⊢
          simp [opsFOutExclInit, opsFOutExcl, ih]

theorem modifyLast_append_last {α : Type} (f : α → α) (l : List α) (a : α) :
    modifyLast f (l ++ [a]) = l ++ [f a] := by
  induction l with
  | nil => rfl
  | cons b rest ih =>
      cases rest with
      | nil => rfl
      | cons c t =>
          simp only [List.cons_append] at ih ⊢
          rw [modifyLast, ih]

theorem widenSet_single (o : String) (names : List String) (h : names ≠ []) :
    widenSet [o] names = names := by
  rw [widenSet]
  have hlen : names.length ≥ 1 := by
    cases names with
    | nil => exact absurd rfl h
    | cons a t => simp
  have : ([o] ++ List.replicate (names.length - 1) "").drop names.length = [] := by
    apply List.drop_eq_nil_of_le
    simp
    omega
  simp only [List.length_cons, List.length_nil] at this ⊢
  rw [this]
  simp

theorem lookupVar_spec (name : String) (s : CState) (v : String) (s' : CState)
    (h : lookupVar name s = Res.ok v s') : s' = s := by
  rw [lookupVar] at h
  cases hal : alookup s.env name with
  | none => rw [hal] at h; cases h
  | some w => rw [hal] at h; cases h; rfl

theorem checkFillAttrs_spec (bt : String) (attrs : List (String × Tree)) :
    ∀ (s : CState) (b : Bool) (s' : CState),
    checkFillAttrs bt attrs s = Res.ok b s' → s' = s := by
  induction attrs with
  | nil => intro s b s' h; cases h; rfl
  | cons a rest ih =>
      intro s b s' h
      rw [checkFillAttrs] at h
      by_cases hn : a.1 = "shape"
      · rw [if_pos hn] at h
        cases hc : checkFillAttrs bt rest s with
        | ok b2 s2 => rw [hc] at h; cases h; exact ih s b2 s' hc
        | err e s2 => rw [hc] at h; cases h
      · rw [if_neg hn] at h; cases h

theorem fillArg_n (nm : String) (v : Tree) : (fillArg nm v).n = none := by
  cases v <;> first
    | rfl
    | (rw [fillArg]; split <;> rfl)

theorem argsNoNets_map_fillArg (attrs : List (String × Tree)) :
    argsNoNets (attrs.map (fun a => fillArg a.1 a.2)) = true := by
  induction attrs with
  | nil => rfl
  | cons a rest ih =>
      simp only [List.map_cons, argsNoNets, Bool.and_eq_true]
      exact ⟨by rw [fillArg_n]; rfl, ih⟩

theorem emitConst_spec (v : Int) (out ti : String) (s : CState)
    (op : OperatorDef) (s' : CState)
    (h : emitConst v out ti s = Res.ok op s') :
    s' = { s with curOps := s.curOps ++ [op] } ∧ op.outputs = [out] ∧
    op.type = "ConstantFill" ∧ argsNoNets op.args = true := by
  rw [emitConst] at h
  split_ifs at h <;>
    (cases h; refine ⟨rfl, rfl, rfl, rfl⟩)

theorem fillOpCore_spec (bt : String) (values : List String)
    (attrs : List (String × Tree)) (s : CState) (op : OperatorDef)
    (s' : CState) (h : fillOpCore bt values attrs s = Res.ok op s') :
    s' = { s with nextFresh := s.nextFresh + 1,
                  curOps := s.curOps ++ [op] } ∧
    op.outputs = [freshName s.nextFresh] ∧ argsNoNets op.args = true := by
  cases values with
  | nil =>
      rw [fillOpCore] at h
      cases h
      refine ⟨rfl, rfl, ?_⟩
      have hf := fillArg_n (headAttr attrs).1 (headAttr attrs).2
      simp only [List.cons_append, List.nil_append, argsNoNets, hf,
        Option.isNone_none, Bool.true_and]
      rfl
  | cons v rest =>
      rw [fillOpCore] at h
      cases h
      exact ⟨rfl, rfl, rfl⟩

theorem opsFOutExcl_append_op (pre : List OperatorDef) (op : OperatorDef)
    (k : Nat) (houts : op.outputs = [freshName k])
    (hnets : argsNoNets op.args = true) :
    opsFOutExcl (pre ++ [op]) = opsFOutExcl pre ++ [k] := by
  rw [opsFOutExcl_append, opsFOutExcl_singleton, opFOutExcl_noNets op hnets,
    houts]
  simp [freshIdx_freshName]

mutual
theorem emit_spec (t : Tree) : ∀ (s : CState) (op : OperatorDef) (s' : CState),
    emit t s = Res.ok op s' →
    s.nextFresh ≤ s'.nextFresh ∧
    ∃ pre k, s'.curOps = s.curOps ++ (pre ++ [op]) ∧
      op.outputs = [freshName k] ∧
      argsNoNets op.args = true ∧
      IncIn (opsFOutExcl pre ++ [k]) s.nextFresh s'.nextFresh := by
  intro s op s' h
  cases t with
  | ident name =>
      simp only [emit] at h
      split at h
      · exact Res.noConfusion h
      · rename_i v s1 heq
        rw [lookupVar_spec name s v s1 heq] at h
        cases h
        exact ⟨Nat.le_succ _, [], s.nextFresh, rfl, rfl, rfl,
          incIn_single s.nextFresh s.nextFresh (s.nextFresh + 1) (le_refl _)
            (Nat.lt_succ_self _)⟩
  | konst v suffix =>
      simp only [emit] at h
      obtain ⟨hs', houts, htype, hnets⟩ :=
        emitConst_spec v (freshName s.nextFresh) suffix
          { s with nextFresh := s.nextFresh + 1 } op s' h
      subst hs'
      exact ⟨Nat.le_succ _, [], s.nextFresh, rfl, houts, hnets,
        incIn_single _ _ _ (le_refl _) (Nat.lt_succ_self _)⟩
  | comp kind subtrees =>
      simp only [emit] at h
      split at h
      · exact Res.noConfusion h
      · rename_i values s1 heq
        obtain ⟨hmono, new, hops, hinc⟩ := getValues_spec subtrees s values s1 heq
        cases h
        refine ⟨le_trans hmono (Nat.le_succ _), new, s1.nextFresh, ?_, rfl, rfl, ?_⟩
        · rw [hops]; simp
        · exact incIn_append hinc
            (incIn_single _ _ _ (le_refl _) (Nat.lt_succ_self _)) hmono (Nat.le_succ _)
  | apply fn inputs attributes =>
      simp only [emit] at h
      by_cases hb : fn = "zeros" ∨ fn = "zeros_like" ∨ fn = "ones" ∨ fn = "ones_like"
      · rw [if_pos hb] at h
        exact emitFillOp_spec fn inputs attributes s op s' h
      · rw [if_neg hb] at h
        split at h
        · exact Res.noConfusion h
        · rename_i values s1 heq
          obtain ⟨hmono, new, hops, hinc⟩ := getValues_spec inputs s values s1 heq
          cases h
          refine ⟨le_trans hmono (Nat.le_succ _), new, s1.nextFresh, ?_, rfl,
            argsNoNets_map_fillArg attributes, ?_⟩
          · rw [hops]; simp
          · exact incIn_append hinc
              (incIn_single _ _ _ (le_refl _) (Nat.lt_succ_self _)) hmono (Nat.le_succ _)
  | cast ty input =>
      simp only [emit] at h
      split at h
      · exact Res.noConfusion h
      · rename_i v s1 heq
        obtain ⟨hmono, new, hops, hinc⟩ := getValue_spec input s v s1 heq
        cases h
        refine ⟨le_trans hmono (Nat.le_succ _), new, s1.nextFresh, ?_, rfl, rfl, ?_⟩
        · rw [hops]; simp
        · exact incIn_append hinc
            (incIn_single _ _ _ (le_refl _) (Nat.lt_succ_self _)) hmono (Nat.le_succ _)
  | list elems =>
      simp only [emit] at h
      exact Res.noConfusion h
  | ifStmt c tb fb =>
      simp only [emit] at h
      exact Res.noConfusion h
  | whileStmt c body =>
      simp only [emit] at h
      exact Res.noConfusion h
  | assign ids red rhs =>
      simp only [emit] at h
      exact Res.noConfusion h
termination_by (sizeOf t, 1)
decreasing_by
  all_goals subst_vars
  all_goals decreasing_tactic

theorem getValue_spec (t : Tree) : ∀ (s : CState) (v : String) (s' : CState),
    getValue t s = Res.ok v s' →
    s.nextFresh ≤ s'.nextFresh ∧
    ∃ new, s'.curOps = s.curOps ++ new ∧
      IncIn (opsFOutExcl new) s.nextFresh s'.nextFresh := by
  intro s v s' h
  cases t
  case ident name =>
    simp only [getValue] at h
    have := lookupVar_spec name s v s' h
    subst this
    exact ⟨le_refl _, [], by simp, incIn_nil _ _⟩
  all_goals
    simp only [getValue] at h
    split at h
    · exact Res.noConfusion h
    · rename_i op1 s1 heq
      obtain ⟨hmono, pre, k, hops, houts, hnets, hinc⟩ := emit_spec _ s op1 s1 heq
      cases h
      refine ⟨hmono, pre ++ [op1], hops, ?_⟩
      rw [opsFOutExcl_append_op pre op1 k houts hnets]
      exact hinc
termination_by (sizeOf t, 2)
decreasing_by
  all_goals subst_vars
  all_goals decreasing_tactic

theorem getValues_spec (ts : List Tree) :
    ∀ (s : CState) (vs : List String) (s' : CState),
    getValues ts s = Res.ok vs s' →
    s.nextFresh ≤ s'.nextFresh ∧
    ∃ new, s'.curOps = s.curOps ++ new ∧
      IncIn (opsFOutExcl new) s.nextFresh s'.nextFresh := by
  intro s vs s' h
  cases ts with
  | nil =>
      simp only [getValues] at h
      cases h
      exact ⟨le_refl _, [], by simp, incIn_nil _ _⟩
  | cons t rest =>
      simp only [getValues] at h
      split at h
      · exact Res.noConfusion h
      · rename_i v1 s1 heq1
        split at h
        · exact Res.noConfusion h
        · rename_i vs2 s2 heq2
          obtain ⟨hm1, new1, hops1, hinc1⟩ := getValue_spec t s v1 s1 heq1
          obtain ⟨hm2, new2, hops2, hinc2⟩ := getValues_spec rest s1 vs2 s2 heq2
          cases h
          refine ⟨le_trans hm1 hm2, new1 ++ new2, ?_, ?_⟩
          · rw [hops2, hops1]; simp
          · rw [opsFOutExcl_append]
            exact incIn_append hinc1 hinc2 hm1 hm2
termination_by (sizeOf ts, 0)
decreasing_by
  all_goals subst_vars
  all_goals decreasing_tactic

theorem emitFillOp_spec (builtinType : String) (inputs : List Tree)
    (attributes : List (String × Tree)) :
    ∀ (s : CState) (op : OperatorDef) (s' : CState),
    emitFillOp builtinType inputs attributes s = Res.ok op s' →
    s.nextFresh ≤ s'.nextFresh ∧
    ∃ pre k, s'.curOps = s.curOps ++ (pre ++ [op]) ∧
      op.outputs = [freshName k] ∧
      argsNoNets op.args = true ∧
      IncIn (opsFOutExcl pre ++ [k]) s.nextFresh s'.nextFresh := by
  intro s op s' h
  rw [emitFillOp] at h
  split at h
  · exact Res.noConfusion h
  · rename_i values s1 heq
    obtain ⟨hm1, new1, hops1, hinc1⟩ := getValues_spec inputs s values s1 heq
    have hcore : ∀ (hc : fillOpCore builtinType values attributes s1 = Res.ok op s'),
        s.nextFresh ≤ s'.nextFresh ∧
        ∃ pre k, s'.curOps = s.curOps ++ (pre ++ [op]) ∧
          op.outputs = [freshName k] ∧
          argsNoNets op.args = true ∧
          IncIn (opsFOutExcl pre ++ [k]) s.nextFresh s'.nextFresh := by
      intro hc
      obtain ⟨hs', houts, hnets⟩ :=
        fillOpCore_spec builtinType values attributes s1 op s' hc
      subst hs'
      refine ⟨le_trans hm1 (Nat.le_succ _), new1, s1.nextFresh, ?_, houts, hnets, ?_⟩
      · rw [hops1]; simp
      · exact incIn_append hinc1
          (incIn_single _ _ _ (le_refl _) (Nat.lt_succ_self _)) hm1 (Nat.le_succ _)
    split at h
    · exact Res.noConfusion h
    · split at h
      · exact Res.noConfusion h
      · rename_i hasShape s2 heq2
        rw [checkFillAttrs_spec builtinType attributes s1 hasShape s2 heq2] at h
        split at h
        · split at h
          · exact Res.noConfusion h
          · exact hcore h
        · split at h
          · exact Res.noConfusion h
          · exact hcore h
termination_by (sizeOf inputs, 2)
decreasing_by
  all_goals subst_vars
  all_goals decreasing_tactic
end

theorem widenSet_nil (outs : List String) : widenSet outs [] = outs := by
  simp [widenSet]

theorem argFOutExcl_netArg (nm nn : String) (ops : List OperatorDef) :
    argFOutExcl (netArg nm (NetDef.mk nn ops)) =
      if nm = "cond_net" then opsFOutExclInit ops else opsFOutExcl ops := by
  rw [netArg, argFOutExcl]

theorem targetNames_spec (ids : List String) :
    ∀ (s : CState) (names : List String) (s' : CState),
    targetNames ids s = Res.ok names s' →
    ids.all (fun i => i = "_" || plainName i) = true →
    s.nextFresh ≤ s'.nextFresh ∧ s'.curOps = s.curOps ∧
    IncIn (names.filterMap freshIdx?) s.nextFresh s'.nextFresh := by
  induction ids with
  | nil =>
      intro s names s' h hp
      simp only [targetNames] at h
      cases h
      exact ⟨le_refl _, rfl, by simpa using incIn_nil s.nextFresh s.nextFresh⟩
  | cons id rest ih =>
      intro s names s' h hp
      rw [List.all_cons, Bool.and_eq_true] at hp
      by_cases hid : id = "_"
      · simp only [targetNames, hid, eq_self_iff_true, if_true] at h
        split at h
        · rename_i names2 s2 heq
          cases h
          obtain ⟨hm, hops, hinc⟩ := ih _ names2 s' heq hp.2
          refine ⟨le_trans (Nat.le_succ _) hm, hops, ?_⟩
          rw [List.filterMap_cons, freshIdx_freshName]
          show IncIn ([s.nextFresh] ++ names2.filterMap freshIdx?) _ _
          exact incIn_append
            (incIn_single s.nextFresh s.nextFresh (s.nextFresh + 1) (le_refl _)
              (Nat.lt_succ_self _))
            hinc (Nat.le_succ _) hm
        · exact Res.noConfusion h
      · simp only [targetNames, if_neg hid] at h
        split at h
        · rename_i names2 s2 heq
          cases h
          obtain ⟨hm, hops, hinc⟩ := ih _ names2 s' heq hp.2
          have hplain : plainName id = true := by
            rcases Bool.or_eq_true_iff.1 hp.1 with hc | hc
            · exact absurd (by simpa using hc) hid
            · exact hc
          have hnone : freshIdx? id = none :=
            Option.isNone_iff_eq_none.1 hplain
          refine ⟨hm, hops, ?_⟩
          rw [List.filterMap_cons, hnone]
          exact hinc
        · exact Res.noConfusion h

theorem emitExpressionStatement_spec (stmt : Tree) (s s' : CState)
    (h : emitExpressionStatement stmt s = Res.ok () s') :
    s.nextFresh ≤ s'.nextFresh ∧
    ∃ new, s'.curOps = s.curOps ++ new ∧
      IncIn (opsFOutExcl new) s.nextFresh s'.nextFresh := by
  rw [emitExpressionStatement] at h
  split at h
  · exact Res.noConfusion h
  · rename_i op1 s1 heq
    obtain ⟨hmono, pre, k, hops, houts, hnets, hinc⟩ := emit_spec _ s op1 s1 heq
    cases h
    refine ⟨hmono, pre ++ [op1.withOutputs []], ?_, ?_⟩
    · show modifyLast _ s1.curOps = _
      rw [hops, ← List.append_assoc, modifyLast_append_last]
      simp [List.append_assoc]
    · rw [opsFOutExcl_append, opsFOutExcl_singleton]
      have hargs : (op1.withOutputs []).args = op1.args := by
        cases op1; rfl
      have hz : opFOutExcl (op1.withOutputs []) = [] := by
        rw [opFOutExcl_noNets _ (by rw [hargs]; exact hnets)]
        cases op1; rfl
      rw [hz, List.append_nil]
      exact incIn_dropLast hinc

theorem emitAssignment_spec (idents : List String) (reduction : Option TKind)
    (rhs : Tree) (s s' : CState)
    (h : emitAssignment idents reduction rhs s = Res.ok () s')
    (hp : idents.all (fun i => i = "_" || plainName i) = true) :
    s.nextFresh ≤ s'.nextFresh ∧
    ∃ new, s'.curOps = s.curOps ++ new ∧
      IncIn (opsFOutExcl new) s.nextFresh s'.nextFresh := by
  have main : ∀ (op1 : OperatorDef) (s1 : CState) (k : Nat)
      (pre : List OperatorDef),
      s1.curOps = s.curOps ++ (pre ++ [op1]) →
      op1.outputs = [freshName k] →
      argsNoNets op1.args = true →
      IncIn (opsFOutExcl pre ++ [k]) s.nextFresh s1.nextFresh →
      s.nextFresh ≤ s1.nextFresh →
      ∀ (names : List String) (s2 : CState),
      targetNames idents s1 = Res.ok names s2 →
      s' = { s2 with curOps := modifyLast (fun o => o.withOutputs (widenSet o.outputs names)) s2.curOps } →
      s.nextFresh ≤ s'.nextFresh ∧
      ∃ new, s'.curOps = s.curOps ++ new ∧
        IncIn (opsFOutExcl new) s.nextFresh s'.nextFresh := by
    intro op1 s1 k pre hops houts hnets hinc hm names s2 heq2 hs'
    obtain ⟨hm2, hops2, hinc2⟩ := targetNames_spec idents s1 names s2 heq2 hp
    subst hs'
    have hargs : (op1.withOutputs (widenSet op1.outputs names)).args = op1.args := by
      cases op1; rfl
    have houts2 : (op1.withOutputs (widenSet op1.outputs names)).outputs =
        widenSet op1.outputs names := by
      cases op1; rfl
    refine ⟨le_trans hm hm2, pre ++ [op1.withOutputs (widenSet op1.outputs names)], ?_, ?_⟩
    · show modifyLast _ s2.curOps = _
      rw [hops2, hops, ← List.append_assoc, modifyLast_append_last]
      simp [List.append_assoc]
    · rw [opsFOutExcl_append, opsFOutExcl_singleton,
        opFOutExcl_noNets _ (by rw [hargs]; exact hnets), houts2]
      cases hnames : names with
      | nil =>
          rw [houts, widenSet_nil]
          have hk : ([freshName k] : List String).filterMap freshIdx? = [k] := by
            simp [freshIdx_freshName]
          rw [hk]
          exact incIn_mono hinc (le_refl _) hm2
      | cons n1 nrest =>
          rw [houts, widenSet_single _ _ (by simp)]
          rw [hnames] at hinc2
          exact incIn_append (incIn_dropLast hinc) hinc2 hm hm2
  cases reduction with
  | none =>
      simp only [emitAssignment] at h
      split at h
      · exact Res.noConfusion h
      · rename_i op1 s1 heqO
        split at h
        · exact Res.noConfusion h
        · rename_i names s2 heq2
          cases h
          obtain ⟨hm1, pre, k, hops1, houts1, hnets1, hinc1⟩ :=
            emit_spec rhs s op1 s1 heqO
          exact main op1 s1 k pre hops1 houts1 hnets1 hinc1 hm1 names s2 heq2 rfl
  | some kind =>
      simp only [emitAssignment] at h
      split at h
      · exact Res.noConfusion h
      · rename_i op1 s1 heqO
        split at h
        · exact Res.noConfusion h
        · rename_i names s3 heq3
          cases h
          split at heqO
          · exact Res.noConfusion heqO
          · split at heqO
            · exact Res.noConfusion heqO
            · rename_i v1 s1a heqL
              split at heqO
              · exact Res.noConfusion heqO
              · rename_i v2 s2 heqG
                cases heqO
                rw [lookupVar_spec _ s v1 s1a heqL] at heqG
                obtain ⟨hm2, new2, hops2, hinc2⟩ := getValue_spec rhs s v2 s2 heqG
                refine main (OperatorDef.mk (operatorName kind 2) [v1, v2] [freshName s2.nextFresh] [broadcastArg]) ⟨s2.env, s2.nextFresh + 1, s2.curOps ++ [OperatorDef.mk (operatorName kind 2) [v1, v2] [freshName s2.nextFresh] [broadcastArg]]⟩ s2.nextFresh new2 ?_ rfl rfl ?_ ?_ names s3 heq3 rfl
                · show s2.curOps ++ _ = _
                  rw [hops2]
                  simp
                · exact incIn_append hinc2
                    (incIn_single _ _ _ (le_refl _) (Nat.lt_succ_self _)) hm2
                    (Nat.le_succ _)
                · exact le_trans hm2 (Nat.le_succ _)

theorem argFOutExcl_condNet (nn : String) (ops : List OperatorDef) :
    argFOutExcl (netArg "cond_net" (NetDef.mk nn ops)) = opsFOutExclInit ops := by
  rw [argFOutExcl_netArg, if_pos rfl]

theorem argFOutExcl_loopNet (nn : String) (ops : List OperatorDef) :
    argFOutExcl (netArg "loop_net" (NetDef.mk nn ops)) = opsFOutExcl ops := by
  rw [argFOutExcl_netArg, if_neg (by decide)]

mutual
theorem emitStatements_spec (l : List Tree) :
    ∀ (s s' : CState), emitStatements l s = Res.ok () s' →
    noFreshTargetsList l = true →
    s.nextFresh ≤ s'.nextFresh ∧
    ∃ new, s'.curOps = s.curOps ++ new ∧
      IncIn (opsFOutExcl new) s.nextFresh s'.nextFresh := by
  intro s s' h hp
  cases l with
  | nil =>
      simp only [emitStatements] at h
      cases h
      exact ⟨le_refl _, [], by simp, incIn_nil _ _⟩
  | cons stmt rest =>
      simp only [emitStatements] at h
      rw [noFreshTargetsList, Bool.and_eq_true] at hp
      split at h
      · exact Res.noConfusion h
      · rename_i u s1 heq
        obtain ⟨hm1, new1, hops1, hinc1⟩ := emitStatement_spec stmt s s1 heq hp.1
        obtain ⟨hm2, new2, hops2, hinc2⟩ := emitStatements_spec rest s1 s' h hp.2
        refine ⟨le_trans hm1 hm2, new1 ++ new2, ?_, ?_⟩
        · rw [hops2, hops1]
          simp
        · rw [opsFOutExcl_append]
          exact incIn_append hinc1 hinc2 hm1 hm2
termination_by (sizeOf l, 1)
decreasing_by
  all_goals subst_vars
  all_goals decreasing_tactic

theorem emitStatement_spec (stmt : Tree) :
    ∀ (s s' : CState), emitStatement stmt s = Res.ok () s' →
    noFreshTargets stmt = true →
    s.nextFresh ≤ s'.nextFresh ∧
    ∃ new, s'.curOps = s.curOps ++ new ∧
      IncIn (opsFOutExcl new) s.nextFresh s'.nextFresh := by
  intro s s' h hp
  cases stmt
  case ifStmt c tb fb =>
    simp only [emitStatement] at h
    simp only [noFreshTargets, Bool.and_eq_true] at hp
    exact emitIf_spec c tb fb s s' h hp.1 hp.2
  case whileStmt c body =>
    simp only [emitStatement] at h
    simp only [noFreshTargets] at hp
    exact emitWhile_spec c body s s' h hp
  case assign ids red rhs =>
    simp only [emitStatement] at h
    simp only [noFreshTargets] at hp
    exact emitAssignment_spec ids red rhs s s' h hp
  all_goals
    simp only [emitStatement] at h
    exact emitExpressionStatement_spec _ s s' h
termination_by (sizeOf stmt, 2)
decreasing_by
  all_goals subst_vars
  all_goals decreasing_tactic

theorem emitIf_spec (cond : Tree) (tb fb : List Tree) :
    ∀ (s s' : CState), emitIf cond tb fb s = Res.ok () s' →
    noFreshTargetsList tb = true → noFreshTargetsList fb = true →
    s.nextFresh ≤ s'.nextFresh ∧
    ∃ new, s'.curOps = s.curOps ++ new ∧
      IncIn (opsFOutExcl new) s.nextFresh s'.nextFresh := by
  intro s s' h htb hfb
  rw [emitIf] at h
  split at h
  · exact Res.noConfusion h
  · rename_i c s1 heq1
    obtain ⟨hm1, new1, hops1, hinc1⟩ := getValue_spec cond s c s1 heq1
    split at h
    · exact Res.noConfusion h
    · rename_i u s2 heq2
      obtain ⟨hm2, new2, hops2, hinc2⟩ :=
        emitStatements_spec tb ⟨s1.env, s1.nextFresh, []⟩ s2 heq2 htb
      simp only [List.nil_append] at hops2
      split at h
      · split at h
        · exact Res.noConfusion h
        · rename_i u2 s3 heq3
          obtain ⟨hm3, new3, hops3, hinc3⟩ :=
            emitStatements_spec fb ⟨s2.env, s2.nextFresh, []⟩ s3 heq3 hfb
          simp only [List.nil_append] at hops3
          cases h
          refine ⟨le_trans hm1 (le_trans hm2 hm3),
            new1 ++ [OperatorDef.mk "If" [c] []
              [netArg "then_net" (NetDef.mk "" s2.curOps),
               netArg "else_net" (NetDef.mk "" s3.curOps)]], ?_, ?_⟩
          · show s1.curOps ++ _ = _
            rw [hops1]
            simp
          · rw [opsFOutExcl_append, opsFOutExcl_singleton, opFOutExcl]
            simp only [List.filterMap_nil, List.nil_append, argsFOutExcl,
              argFOutExcl_netArg, List.append_nil]
            rw [if_neg (by decide), if_neg (by decide), hops2, hops3]
            refine incIn_append hinc1 ?_ hm1 (le_trans hm2 hm3)
            exact incIn_append hinc2 hinc3 hm2 hm3
      · cases h
        refine ⟨le_trans hm1 hm2,
          new1 ++ [OperatorDef.mk "If" [c] []
            [netArg "then_net" (NetDef.mk "" s2.curOps)]], ?_, ?_⟩
        · show s1.curOps ++ _ = _
          rw [hops1]
          simp
        · rw [opsFOutExcl_append, opsFOutExcl_singleton, opFOutExcl]
          simp only [List.filterMap_nil, List.nil_append, argsFOutExcl,
            argFOutExcl_netArg, List.append_nil]
          rw [if_neg (by decide), hops2]
          exact incIn_append hinc1 hinc2 hm1 hm2
termination_by (sizeOf cond + sizeOf tb + sizeOf fb, 0)
decreasing_by
  all_goals subst_vars
  all_goals
    (first
      | decreasing_tactic
      | (exact Prod.Lex.left _ _ (by
          have h1 : 0 < sizeOf cond := by cases cond <;> simp_arith
          have h2 : 0 < sizeOf tb := by cases tb <;> simp_arith
          have h3 : 0 < sizeOf fb := by cases fb <;> simp_arith
          simp_arith
          omega)))

theorem emitWhile_spec (cond : Tree) (body : List Tree) :
    ∀ (s s' : CState), emitWhile cond body s = Res.ok () s' →
    noFreshTargetsList body = true →
    s.nextFresh ≤ s'.nextFresh ∧
    ∃ new, s'.curOps = s.curOps ++ new ∧
      IncIn (opsFOutExcl new) s.nextFresh s'.nextFresh := by
  intro s s' h hb
  rw [emitWhile] at h
  split at h
  · exact Res.noConfusion h
  · rename_i cop s1 heq1
    obtain ⟨hs1, houts1, htype1, hnets1⟩ :=
      emitConst_spec 0 (freshName s.nextFresh) "i" _ cop s1 heq1
    subst hs1
    split at h
    · exact Res.noConfusion h
    · rename_i condOp s2 heq2
      obtain ⟨hm2, pre, k, hops2, houts2, hnets2, hinc2⟩ :=
        emit_spec cond _ condOp s2 heq2
      simp only [List.nil_append] at hops2
      split at h
      · exact Res.noConfusion h
      · rename_i u s3 heq3
        obtain ⟨hm3, new3, hops3, hinc3⟩ :=
          emitStatements_spec body ⟨s2.env, s2.nextFresh, []⟩ s3 heq3 hb
        simp only [List.nil_append] at hops3
        cases h
        refine ⟨le_trans (Nat.le_succ _) (le_trans hm2 hm3),
          [cop] ++ [OperatorDef.mk "While" [freshName s.nextFresh] []
            [netArg "cond_net" (NetDef.mk ""
              (modifyLast (fun o => o.withOutputs (o.outputs.set 0 (freshName s.nextFresh))) s2.curOps)),
             netArg "loop_net" (NetDef.mk "" s3.curOps)]], ?_, ?_⟩
        · simp
        · rw [opsFOutExcl_append, opsFOutExcl_singleton, opsFOutExcl_singleton,
            opFOutExcl_noNets cop hnets1, houts1]
          rw [opFOutExcl]
          simp only [List.filterMap_nil, List.nil_append, argsFOutExcl,
            argFOutExcl_condNet, argFOutExcl_loopNet, List.append_nil]
          rw [hops2, modifyLast_append_last, opsFOutExclInit_append_last, hops3]
          have hone : ([freshName s.nextFresh] : List String).filterMap freshIdx? = [s.nextFresh] := by
            simp [freshIdx_freshName]
          rw [hone]
          refine incIn_append
            (incIn_single s.nextFresh s.nextFresh (s.nextFresh + 1) (le_refl _)
              (Nat.lt_succ_self _))
            ?_ (Nat.le_succ _) (le_trans hm2 hm3)
          exact incIn_append (incIn_dropLast hinc2) hinc3 hm2 hm3
termination_by (sizeOf cond + sizeOf body, 0)
decreasing_by
  all_goals subst_vars
  all_goals
    (first
      | decreasing_tactic
      | (exact Prod.Lex.left _ _ (by
          have h1 : 0 < sizeOf cond := by cases cond <;> simp_arith
          have h2 : 0 < sizeOf body := by cases body <;> simp_arith
          simp_arith
          omega)))
end

/-- C3 counterexample: lowering `x + y` with `x ↦ vx`, `y ↦ vy` bound
emits exactly one operation, the `Add`, whose inputs are the current
environment bindings `vx`, `vy` themselves: no copy-style operation is
emitted for the operand occurrences and no fresh alias distinct from the
binding is produced, so the claim that every consumed expression position
(operator operand, call argument, cast operand) yields a fresh copy of the
identifier's binding is false — `getValue` resolves a bare identifier
operand directly through the environment. -/
theorem c3_counterexample :
    emit (Tree.comp TKind.plus [Tree.ident "x", Tree.ident "y"])
      ⟨[("x", "vx"), ("y", "vy")], 0, []⟩ =
    Res.ok (OperatorDef.mk "Add" ["vx", "vy"] [freshName 0] [broadcastArg])
      ⟨[("x", "vx"), ("y", "vy")], 1,
        [OperatorDef.mk "Add" ["vx", "vy"] [freshName 0] [broadcastArg]]⟩ := by
  simp [emit, getValues, getValue, lookupVar, alookup, operatorName]

/-- C3 amended: an identifier in an operand position (operator operand,
call argument, cast operand) resolves directly to its current environment
binding and emits nothing; only when an identifier is the whole expression
handed to `emit` (a bare right-hand side, a bare expression statement, or
a while condition) does lowering emit a `Copy` operation with a fresh
output name. -/
theorem c3_ident_positions (s : CState) (name v : String)
    (h : alookup s.env name = some v) :
    getValue (Tree.ident name) s = Res.ok v s ∧
    emit (Tree.ident name) s =
      Res.ok (OperatorDef.mk "Copy" [v] [freshName s.nextFresh] [])
        ⟨s.env, s.nextFresh + 1,
          s.curOps ++ [OperatorDef.mk "Copy" [v] [freshName s.nextFresh] []]⟩ := by
  constructor
  · simp [getValue, lookupVar, h]
  · simp [emit, lookupVar, h]

/-- C3 witness: the amended theorem applied at a concrete environment. -/
theorem c3_ident_positions_witness :
    getValue (Tree.ident "x") ⟨[("x", "vx")], 0, []⟩ =
      Res.ok "vx" ⟨[("x", "vx")], 0, []⟩ ∧
    emit (Tree.ident "x") ⟨[("x", "vx")], 0, []⟩ =
      Res.ok (OperatorDef.mk "Copy" ["vx"] [freshName 0] [])
        ⟨[("x", "vx")], 1, [OperatorDef.mk "Copy" ["vx"] [freshName 0] []]⟩ :=
  c3_ident_positions ⟨[("x", "vx")], 0, []⟩ "x" "vx" rfl

/-- C4 counterexample: a generic call with a keyword argument whose value
is an identifier (neither a numeric scalar nor a numeric list) is not
rejected: lowering succeeds and the attribute is encoded with only its
name set (`fillArg`'s switch silently ignores the value), so no
UnsupportedAttribute error exists on this path. -/
theorem c4_counterexample :
    emit (Tree.apply "Foo" [] [("alpha", Tree.ident "y")]) ⟨[], 0, []⟩ =
      Res.ok (OperatorDef.mk "Foo" [] [freshName 0]
          [Argument.mk "alpha" none none [] [] none])
        ⟨[], 1, [OperatorDef.mk "Foo" [] [freshName 0]
          [Argument.mk "alpha" none none [] [] none]]⟩ := by
  simp [emit, getValues, fillArg]

/-- C4 amended: `fillArg` is total; a keyword-argument value that is
neither a `TK_CONST` scalar nor a `TK_LIST` is silently encoded as an
argument carrying only its name (every payload field empty), not rejected
with an error. -/
theorem c4_attr_encoding (name : String) (t : Tree)
    (hc : ∀ (v : Int) (ti : String), t ≠ Tree.konst v ti)
    (hl : ∀ (elems : List Tree), t ≠ Tree.list elems) :
    fillArg name t = Argument.mk name none none [] [] none := by
  cases t <;> first
    | rfl
    | exact absurd rfl (hc _ _)
    | exact absurd rfl (hl _)

/-- C4 witness: the amended theorem applied to an identifier-valued
attribute. -/
theorem c4_attr_encoding_witness :
    (∀ (v : Int) (ti : String), Tree.ident "y" ≠ Tree.konst v ti) ∧
    (∀ (elems : List Tree), Tree.ident "y" ≠ Tree.list elems) ∧
    fillArg "alpha" (Tree.ident "y") =
      Argument.mk "alpha" none none [] [] none :=
  ⟨fun _ _ h => Tree.noConfusion h, fun _ h => Tree.noConfusion h,
    c4_attr_encoding "alpha" (Tree.ident "y") (fun _ _ h => Tree.noConfusion h)
      (fun _ h => Tree.noConfusion h)⟩

/-- C10 confirmed: for every operator-expression kind — arithmetic,
comparison, the logical operators And/Or/Not, and the conditional
(TK_IF_EXPR) alike — `emit` appends exactly one operation beyond the
operand lowerings, typed by the `operatorName` table, and that operation
carries the integer attribute `broadcast` with value 1 (`broadcastArg`)
and one fresh output. -/
theorem c10_broadcast (kind : TKind) (ts : List Tree) (s s1 : CState)
    (vals : List String) (h : getValues ts s = Res.ok vals s1) :
    emit (Tree.comp kind ts) s =
      Res.ok (OperatorDef.mk (operatorName kind ts.length) vals
          [freshName s1.nextFresh] [broadcastArg])
        ⟨s1.env, s1.nextFresh + 1, s1.curOps ++
          [OperatorDef.mk (operatorName kind ts.length) vals
            [freshName s1.nextFresh] [broadcastArg]]⟩ := by
  simp [emit, h]

/-- C10 witness: the theorem applied to `a and b` at a concrete
environment. -/
theorem c10_broadcast_witness :
    emit (Tree.comp TKind.tkAnd [Tree.ident "a", Tree.ident "b"])
      ⟨[("a", "a"), ("b", "b")], 0, []⟩ =
    Res.ok (OperatorDef.mk "And" ["a", "b"] [freshName 0] [broadcastArg])
      ⟨[("a", "a"), ("b", "b")], 1,
        [OperatorDef.mk "And" ["a", "b"] [freshName 0] [broadcastArg]]⟩ :=
  c10_broadcast TKind.tkAnd [Tree.ident "a", Tree.ident "b"]
    ⟨[("a", "a"), ("b", "b")], 0, []⟩ ⟨[("a", "a"), ("b", "b")], 0, []⟩
    ["a", "b"] (by simp [getValues, getValue, lookupVar, alookup])

/-- C9 counterexample: after `_ = 1; _ = 2; y = _` each discard target
does get its own fresh output name (`$t1`, `$t3`), but the discard
identifier is bound in the environment to its most recent fresh name
(`map(ident.name(), name)` runs for `_` too), so the later reference
`y = _` resolves — the final `Copy` reads the discarded value `$t3` —
contradicting the claim that a subsequent reference to the discard
identifier has no binding to resolve and that its value is unobservable
downstream. -/
theorem c9_counterexample :
    emitStatements
      [Tree.assign ["_"] none (Tree.konst 1 "i"),
       Tree.assign ["_"] none (Tree.konst 2 "i"),
       Tree.assign ["y"] none (Tree.ident "_")]
      ⟨[], 0, []⟩ =
    Res.ok ()
      ⟨[("y", "y"), ("_", freshName 3), ("_", freshName 1)], 5,
        [OperatorDef.mk "ConstantFill" [] [freshName 1]
          [Argument.mk "dtype" (some 2) none [] [] none,
           Argument.mk "value" (some 1) none [] [] none,
           Argument.mk "shape" none none [1] [] none],
         OperatorDef.mk "ConstantFill" [] [freshName 3]
          [Argument.mk "dtype" (some 2) none [] [] none,
           Argument.mk "value" (some 2) none [] [] none,
           Argument.mk "shape" none none [1] [] none],
         OperatorDef.mk "Copy" [freshName 3] ["y"] []]⟩ := by
  simp [emitStatements, emitStatement, emitAssignment, emit, emitConst,
    targetNames, widenSet, modifyLast, envInsert, lookupVar, alookup,
    getValue, getValues]

/-- C9 amended: every assignment to the discard identifier overwrites the
produced operation's output with a brand-new fresh name (so independent
discarded results are never aliased), but `_` is then bound in the
environment to that fresh name like any other target, so the latest
discarded value remains resolvable by a subsequent reference to `_`. -/
theorem c9_discard (rhs : Tree) (s s1 : CState) (op1 : OperatorDef)
    (h : emit rhs s = Res.ok op1 s1) :
    emitAssignment ["_"] none rhs s =
      Res.ok ()
        ⟨("_", freshName s1.nextFresh) :: s1.env, s1.nextFresh + 1,
          modifyLast (fun o => o.withOutputs
            (widenSet o.outputs [freshName s1.nextFresh])) s1.curOps⟩ := by
  simp [emitAssignment, h, targetNames, envInsert]

/-- C9 witness: the amended theorem applied to `_ = 1` from the initial
state. -/
theorem c9_discard_witness :
    emitAssignment ["_"] none (Tree.konst 1 "i") ⟨[], 0, []⟩ =
      Res.ok ()
        ⟨[("_", freshName 1)], 2,
          modifyLast (fun o => o.withOutputs
            (widenSet o.outputs [freshName 1]))
            [OperatorDef.mk "ConstantFill" [] [freshName 0]
              [Argument.mk "dtype" (some 2) none [] [] none,
               Argument.mk "value" (some 1) none [] [] none,
               Argument.mk "shape" none none [1] [] none]]⟩ :=
  c9_discard (Tree.konst 1 "i") ⟨[], 0, []⟩ ⟨[], 1,
      [OperatorDef.mk "ConstantFill" [] [freshName 0]
        [Argument.mk "dtype" (some 2) none [] [] none,
         Argument.mk "value" (some 1) none [] [] none,
         Argument.mk "shape" none none [1] [] none]]⟩
    (OperatorDef.mk "ConstantFill" [] [freshName 0]
      [Argument.mk "dtype" (some 2) none [] [] none,
       Argument.mk "value" (some 1) none [] [] none,
       Argument.mk "shape" none none [1] [] none])
    (by simp [emit, emitConst])

theorem alookup_append_of_none {α : Type} (l : List (String × α)) (k : String)
    (v : α) (h : alookup l k = none) :
    alookup (l ++ [(k, v)]) k = some v := by
  induction l with
  | nil => simp [alookup]
  | cons a rest ih =>
      rw [alookup] at h
      rw [List.cons_append, alookup]
      split at h
      · exact Option.noConfusion h
      · rename_i hne
        rw [if_neg hne]
        exact ih h

/-- C1 counterexample: `zeros(x, shape=[2,2])`, with operand and `shape`
attribute both present, is accepted, not rejected: the arity test
`values.size() != 1 && !has_shape` only fires when neither is present, so
the call lowers to a single `ConstantFill` using the operand as input
(with `input_as_shape` = 1) and the `shape` attribute is silently
ignored. -/
theorem c1_counterexample :
    emit (Tree.apply "zeros" [Tree.ident "x"]
        [("shape", Tree.list [Tree.konst 2 "i", Tree.konst 2 "i"])])
      ⟨[("x", "x")], 0, []⟩ =
    Res.ok (OperatorDef.mk "ConstantFill" ["x"] [freshName 0]
        [Argument.mk "input_as_shape" (some 1) none [] [] none,
         Argument.mk "value" none (some 0) [] [] none])
      ⟨[("x", "x")], 1,
        [OperatorDef.mk "ConstantFill" ["x"] [freshName 0]
          [Argument.mk "input_as_shape" (some 1) none [] [] none,
           Argument.mk "value" none (some 0) [] [] none]]⟩ := by
  have h1 : charsInfix "_like".data "zeros".data = false := by decide
  have h2 : charsInfix "ones".data "zeros".data = false := by decide
  simp [emit, emitFillOp, getValues, getValue, lookupVar, alookup,
    checkFillAttrs, fillOpCore, h1, h2]

/-- C1 amended: for `zeros`/`ones` at least one of {operand, `shape`
attribute} must be present — a call with neither raises the
IntrinsicArityError report — but a call with both one operand and a
`shape` attribute is accepted: the operand is wired as input with
`input_as_shape` = 1 and the attribute is ignored.  For the `_like`
forms exactly one operand is required regardless of any `shape`
attribute. -/
theorem c1_intrinsic_arity (s : CState) (x v : String) (shapeVal : Tree)
    (hx : alookup s.env x = some v) :
    emitFillOp "zeros" [] [] s =
      Res.err (Err.report "Built-in zeros requires either 1 input or 1 shape attribute") s ∧
    emitFillOp "ones" [] [] s =
      Res.err (Err.report "Built-in ones requires either 1 input or 1 shape attribute") s ∧
    emitFillOp "zeros" [Tree.ident x] [("shape", shapeVal)] s =
      Res.ok (OperatorDef.mk "ConstantFill" [v] [freshName s.nextFresh]
          [Argument.mk "input_as_shape" (some 1) none [] [] none,
           Argument.mk "value" none (some 0) [] [] none])
        ⟨s.env, s.nextFresh + 1,
          s.curOps ++ [OperatorDef.mk "ConstantFill" [v] [freshName s.nextFresh]
            [Argument.mk "input_as_shape" (some 1) none [] [] none,
             Argument.mk "value" none (some 0) [] [] none]]⟩ ∧
    emitFillOp "zeros_like" [] [] s =
      Res.err (Err.report "Built-in zeros_like requires 1 input") s ∧
    emitFillOp "zeros_like" [] [("shape", shapeVal)] s =
      Res.err (Err.report "Built-in zeros_like requires 1 input") s ∧
    emitFillOp "zeros_like" [Tree.ident x] [] s =
      Res.ok (OperatorDef.mk "ConstantFill" [v] [freshName s.nextFresh]
          [Argument.mk "input_as_shape" (some 0) none [] [] none,
           Argument.mk "value" none (some 0) [] [] none])
        ⟨s.env, s.nextFresh + 1,
          s.curOps ++ [OperatorDef.mk "ConstantFill" [v] [freshName s.nextFresh]
            [Argument.mk "input_as_shape" (some 0) none [] [] none,
             Argument.mk "value" none (some 0) [] [] none]]⟩ := by
  have h1 : charsInfix "_like".data "zeros".data = false := by decide
  have h2 : charsInfix "ones".data "zeros".data = false := by decide
  have h3 : charsInfix "_like".data "zeros_like".data = true := by decide
  have h4 : charsInfix "ones".data "zeros_like".data = false := by decide
  refine ⟨?_, ?_, ?_, ?_, ?_, ?_⟩ <;>
    simp [emitFillOp, getValues, getValue, lookupVar, hx, checkFillAttrs,
      fillOpCore, h1, h2, h3, h4]

/-- C1 witness: the amended theorem applied at a concrete environment
binding `x ↦ x` and a concrete shape attribute value. -/
theorem c1_intrinsic_arity_witness :
    emitFillOp "zeros" [] [] ⟨[("x", "x")], 0, []⟩ =
      Res.err (Err.report "Built-in zeros requires either 1 input or 1 shape attribute") ⟨[("x", "x")], 0, []⟩ ∧
    emitFillOp "ones" [] [] ⟨[("x", "x")], 0, []⟩ =
      Res.err (Err.report "Built-in ones requires either 1 input or 1 shape attribute") ⟨[("x", "x")], 0, []⟩ ∧
    emitFillOp "zeros" [Tree.ident "x"] [("shape", Tree.list [])] ⟨[("x", "x")], 0, []⟩ =
      Res.ok (OperatorDef.mk "ConstantFill" ["x"] [freshName 0]
          [Argument.mk "input_as_shape" (some 1) none [] [] none,
           Argument.mk "value" none (some 0) [] [] none])
        ⟨[("x", "x")], 1,
          [OperatorDef.mk "ConstantFill" ["x"] [freshName 0]
            [Argument.mk "input_as_shape" (some 1) none [] [] none,
             Argument.mk "value" none (some 0) [] [] none]]⟩ ∧
    emitFillOp "zeros_like" [] [] ⟨[("x", "x")], 0, []⟩ =
      Res.err (Err.report "Built-in zeros_like requires 1 input") ⟨[("x", "x")], 0, []⟩ ∧
    emitFillOp "zeros_like" [] [("shape", Tree.list [])] ⟨[("x", "x")], 0, []⟩ =
      Res.err (Err.report "Built-in zeros_like requires 1 input") ⟨[("x", "x")], 0, []⟩ ∧
    emitFillOp "zeros_like" [Tree.ident "x"] [] ⟨[("x", "x")], 0, []⟩ =
      Res.ok (OperatorDef.mk "ConstantFill" ["x"] [freshName 0]
          [Argument.mk "input_as_shape" (some 0) none [] [] none,
           Argument.mk "value" none (some 0) [] [] none])
        ⟨[("x", "x")], 1,
          [OperatorDef.mk "ConstantFill" ["x"] [freshName 0]
            [Argument.mk "input_as_shape" (some 0) none [] [] none,
             Argument.mk "value" none (some 0) [] [] none]]⟩ :=
  c1_intrinsic_arity ⟨[("x", "x")], 0, []⟩ "x" "x" (Tree.list []) rfl

/-- C2 counterexample: compiling `def f: y = x` (with `x` unbound) fails
with "undefined value x", yet the registry afterwards contains an entry
for `f` holding the partially built (here empty) net: `defineFunction`
emplaces the entry before compilation and does not remove it on
failure. -/
theorem c2_counterexample :
    defineFunction [] (Def.mk "f" [] [] [Tree.assign ["y"] none (Tree.ident "x")]) =
      (some (Err.report "undefined value x"), [("f", NetDef.mk "f" [])]) := by
  simp [defineFunction, runDef, bindSelf, initState, emitStatements,
    emitStatement, emitAssignment, emit, lookupVar, alookup]

/-- C2 amended: the Compilation Unit's registry entry for a function is
created before its compilation starts and is mutated in place, so when
compilation fails partway the entry remains registered under the
function's name, holding the partially built graph. -/
theorem c2_failed_define_registers (fns : List (String × NetDef)) (d : Def)
    (e : Err) (hnew : alookup fns d.name = none)
    (hfail : (defineFunction fns d).1 = some e) :
    alookup (defineFunction fns d).2 d.name ≠ none := by
  rw [defineFunction] at hfail ⊢
  rw [hnew] at hfail ⊢
  simp only [Option.isSome_none, Bool.false_eq_true, if_false]
  cases hrun : runDef d initState with
  | ok a srun =>
      simp [alookup_append_of_none fns d.name _ hnew]
  | err e2 srun =>
      simp [alookup_append_of_none fns d.name _ hnew]

/-- C2 witness: the amended theorem applied to the failing definition of
the counterexample. -/
theorem c2_failed_define_registers_witness :
    alookup [] "f" = (none : Option NetDef) ∧
    (defineFunction [] (Def.mk "f" [] [] [Tree.assign ["y"] none (Tree.ident "x")])).1 =
      some (Err.report "undefined value x") ∧
    alookup (defineFunction [] (Def.mk "f" [] [] [Tree.assign ["y"] none (Tree.ident "x")])).2 "f" ≠ none :=
  ⟨rfl,
   by simp [defineFunction, runDef, bindSelf, initState, emitStatements,
     emitStatement, emitAssignment, emit, lookupVar, alookup],
   c2_failed_define_registers [] (Def.mk "f" [] [] [Tree.assign ["y"] none (Tree.ident "x")])
     (Err.report "undefined value x") rfl
     (by simp [defineFunction, runDef, bindSelf, initState, emitStatements,
       emitStatement, emitAssignment, emit, lookupVar, alookup])⟩

/-- C5 counterexample: lowering `if c: x = 1 else: y = x` with only `c`
bound.  Under per-branch environment frames the else branch could not see
the then branch's binding of `x`; in fact the single flat environment
makes the else branch's `y = x` resolve `x` to the then branch's binding
(the Copy reads "x"), and after the whole statement the environment still
holds `x ↦ x` and `y ↦ y` — branch rebindings are visible to the sibling
branch and to statements after the control statement. -/
theorem c5_counterexample :
    emitStatements
      [Tree.ifStmt (Tree.ident "c")
        [Tree.assign ["x"] none (Tree.konst 1 "i")]
        [Tree.assign ["y"] none (Tree.ident "x")]]
      ⟨[("c", "c")], 0, []⟩ =
    Res.ok ()
      ⟨[("y", "y"), ("x", "x"), ("c", "c")], 2,
        [OperatorDef.mk "If" ["c"] []
          [netArg "then_net" (NetDef.mk ""
            [OperatorDef.mk "ConstantFill" [] ["x"]
              [Argument.mk "dtype" (some 2) none [] [] none,
               Argument.mk "value" (some 1) none [] [] none,
               Argument.mk "shape" none none [1] [] none]]),
           netArg "else_net" (NetDef.mk ""
            [OperatorDef.mk "Copy" ["x"] ["y"] []])]]⟩ := by
  simp [emitStatements, emitStatement, emitIf, emitAssignment, emit,
    emitConst, targetNames, widenSet, modifyLast, envInsert, lookupVar,
    alookup, getValue, getValues]

/-- C5 amended: the environment is one flat map shared across all graph
levels; `emitIf` lowers the then branch in the environment produced by
the condition, lowers the else branch in the environment produced by the
then branch (s2.env), and leaves the environment of the whole statement
equal to the else branch's final environment (s3.env) — no frame is
pushed or popped around a branch, so branch rebindings persist. -/
theorem c5_flat_env (cond : Tree) (tb fb : List Tree) (s s1 s2 s3 : CState)
    (c : String) (hc : getValue cond s = Res.ok c s1)
    (ht : emitStatements tb ⟨s1.env, s1.nextFresh, []⟩ = Res.ok () s2)
    (hf : emitStatements fb ⟨s2.env, s2.nextFresh, []⟩ = Res.ok () s3)
    (hfb : 0 < fb.length) :
    emitIf cond tb fb s =
      Res.ok () ⟨s3.env, s3.nextFresh, s1.curOps ++
        [OperatorDef.mk "If" [c] []
          [netArg "then_net" (NetDef.mk "" s2.curOps),
           netArg "else_net" (NetDef.mk "" s3.curOps)]]⟩ := by
  simp only [emitIf, hc, ht, hf, if_pos hfb]

/-- C5 witness: the amended theorem applied to the counterexample's
branches. -/
theorem c5_flat_env_witness :
    emitIf (Tree.ident "c")
      [Tree.assign ["x"] none (Tree.konst 1 "i")]
      [Tree.assign ["y"] none (Tree.ident "x")]
      ⟨[("c", "c")], 0, []⟩ =
    Res.ok ()
      ⟨[("y", "y"), ("x", "x"), ("c", "c")], 2,
        [OperatorDef.mk "If" ["c"] []
          [netArg "then_net" (NetDef.mk ""
            [OperatorDef.mk "ConstantFill" [] ["x"]
              [Argument.mk "dtype" (some 2) none [] [] none,
               Argument.mk "value" (some 1) none [] [] none,
               Argument.mk "shape" none none [1] [] none]]),
           netArg "else_net" (NetDef.mk ""
            [OperatorDef.mk "Copy" ["x"] ["y"] []])]]⟩ :=
  c5_flat_env (Tree.ident "c")
    [Tree.assign ["x"] none (Tree.konst 1 "i")]
    [Tree.assign ["y"] none (Tree.ident "x")]
    ⟨[("c", "c")], 0, []⟩ ⟨[("c", "c")], 0, []⟩
    ⟨[("x", "x"), ("c", "c")], 1,
      [OperatorDef.mk "ConstantFill" [] ["x"]
        [Argument.mk "dtype" (some 2) none [] [] none,
         Argument.mk "value" (some 1) none [] [] none,
         Argument.mk "shape" none none [1] [] none]]⟩
    ⟨[("y", "y"), ("x", "x"), ("c", "c")], 2,
      [OperatorDef.mk "Copy" ["x"] ["y"] []]⟩
    "c" (by simp [getValue, lookupVar, alookup])
    (by simp [emitStatements, emitStatement, emitAssignment, emit,
      emitConst, targetNames, widenSet, modifyLast, envInsert])
    (by simp [emitStatements, emitStatement, emitAssignment, emit,
      targetNames, widenSet, modifyLast, envInsert, lookupVar, alookup])
    (by decide)

/-- C7 confirmed: a compound-reduction assignment with more than one
left-hand target raises the multi-target reduction report; with exactly
one plain target `x`, `x += e` compiles to a single binary `Add`
operation (the inlined lowering of `Compound('+', {x, e})`) whose inputs
are `x`'s current environment value and the lowered value of `e`, and
whose sole output is `x`, rebinding `x` in the environment. -/
theorem c7_reduction :
    (∀ (ids : List String) (kind : TKind) (rhs : Tree) (s : CState),
      ids.length ≠ 1 →
      emitAssignment ids (some kind) rhs s =
        Res.err (Err.report ("reductions are only allow when there is a " ++
          "single variable on the left-hand side.")) s) ∧
    (∀ (x : String) (e : Tree) (s s1 : CState) (vx v : String),
      alookup s.env x = some vx →
      getValue e s = Res.ok v s1 →
      x ≠ "_" →
      emitAssignment [x] (some TKind.plus) e s =
        Res.ok () ⟨(x, x) :: s1.env, s1.nextFresh + 1, s1.curOps ++
          [OperatorDef.mk "Add" [vx, v] [x] [broadcastArg]]⟩) := by
  constructor
  · intro ids kind rhs s hne
    simp [emitAssignment, hne]
  · intro x e s s1 vx v hx hge hxne
    have hlv : lookupVar x s = Res.ok vx s := by simp [lookupVar, hx]
    have hw : widenSet [freshName s1.nextFresh] [x] = [x] :=
      widenSet_single _ _ (by simp)
    simp [emitAssignment, hlv, hge, targetNames, if_neg hxne, envInsert,
      modifyLast_append_last, hw, operatorName]

/-- C7 witness: the theorem applied to a two-target reduction (error) and
to `x += y` at a concrete environment. -/
theorem c7_reduction_witness :
    emitAssignment ["a", "b"] (some TKind.plus) (Tree.konst 1 "i") ⟨[], 0, []⟩ =
      Res.err (Err.report ("reductions are only allow when there is a " ++
        "single variable on the left-hand side.")) ⟨[], 0, []⟩ ∧
    emitAssignment ["x"] (some TKind.plus) (Tree.ident "y")
      ⟨[("x", "vx"), ("y", "vy")], 0, []⟩ =
      Res.ok () ⟨[("x", "x"), ("x", "vx"), ("y", "vy")], 1,
        [OperatorDef.mk "Add" ["vx", "vy"] ["x"] [broadcastArg]]⟩ :=
  ⟨c7_reduction.1 ["a", "b"] TKind.plus (Tree.konst 1 "i") ⟨[], 0, []⟩
    (by decide),
   c7_reduction.2 "x" (Tree.ident "y") ⟨[("x", "vx"), ("y", "vy")], 0, []⟩
    ⟨[("x", "vx"), ("y", "vy")], 0, []⟩ "vx" "vy" rfl
    (by simp [getValue, lookupVar, alookup]) (by decide)⟩

theorem bindSelf_curOps (l : List String) (s : CState) :
    (bindSelf l s).curOps = s.curOps := by
  induction l generalizing s with
  | nil => rfl
  | cons n rest ih =>
      rw [bindSelf]
      exact ih _

/-- C6 confirmed: lowering `while cond: body` produces exactly the claimed
shape — a fresh loop-control name bound by a constant-zero (int32)
`ConstantFill` emitted before the `While` operation; the `While`
operation's declared input is that loop-control name; its `cond_net`
sub-graph is the lowered condition with the final operation's output
overwritten to the loop-control name (second conjunct); and its
`loop_net` sub-graph is the lowered loop body. -/
theorem c6_while_shape (cond : Tree) (body : List Tree) (s s1 s2 : CState)
    (condOp : OperatorDef)
    (hc : emit cond ⟨s.env, s.nextFresh + 1, []⟩ = Res.ok condOp s1)
    (hb : emitStatements body ⟨s1.env, s1.nextFresh, []⟩ = Res.ok () s2) :
    emitWhile cond body s =
      Res.ok () ⟨s2.env, s2.nextFresh,
        s.curOps ++
          [OperatorDef.mk "ConstantFill" [] [freshName s.nextFresh]
            [Argument.mk "dtype" (some 2) none [] [] none,
             Argument.mk "value" (some 0) none [] [] none,
             Argument.mk "shape" none none [1] [] none],
           OperatorDef.mk "While" [freshName s.nextFresh] []
            [netArg "cond_net" (NetDef.mk ""
              (modifyLast (fun o => o.withOutputs (o.outputs.set 0 (freshName s.nextFresh))) s1.curOps)),
             netArg "loop_net" (NetDef.mk "" s2.curOps)]]⟩ ∧
    ∃ pre, modifyLast (fun o => o.withOutputs (o.outputs.set 0 (freshName s.nextFresh))) s1.curOps =
      pre ++ [condOp.withOutputs [freshName s.nextFresh]] := by
  have hconst : emitConst 0 (freshName s.nextFresh) "i"
      ⟨s.env, s.nextFresh + 1, s.curOps⟩ =
      Res.ok (OperatorDef.mk "ConstantFill" [] [freshName s.nextFresh]
          [Argument.mk "dtype" (some 2) none [] [] none,
           Argument.mk "value" (some 0) none [] [] none,
           Argument.mk "shape" none none [1] [] none])
        ⟨s.env, s.nextFresh + 1, s.curOps ++
          [OperatorDef.mk "ConstantFill" [] [freshName s.nextFresh]
            [Argument.mk "dtype" (some 2) none [] [] none,
             Argument.mk "value" (some 0) none [] [] none,
             Argument.mk "shape" none none [1] [] none]]⟩ := by
    simp [emitConst]
  constructor
  · simp only [emitWhile, hconst, hc, hb]
    simp [List.append_assoc]
  · obtain ⟨hm, pre, k, hops, houts, hnets, hinc⟩ :=
      emit_spec cond ⟨s.env, s.nextFresh + 1, []⟩ condOp s1 hc
    simp only [List.nil_append] at hops
    refine ⟨pre, ?_⟩
    rw [hops, modifyLast_append_last]
    cases condOp with
    | mk t i o a =>
        simp only [OperatorDef.outputs] at houts
        simp [houts]

/-- C6 witness: the theorem applied to `while c: pass` at a concrete
environment binding `c ↦ c`. -/
theorem c6_while_shape_witness :
    emitWhile (Tree.ident "c") [] ⟨[("c", "c")], 0, []⟩ =
      Res.ok () ⟨[("c", "c")], 2,
        [OperatorDef.mk "ConstantFill" [] [freshName 0]
          [Argument.mk "dtype" (some 2) none [] [] none,
           Argument.mk "value" (some 0) none [] [] none,
           Argument.mk "shape" none none [1] [] none],
         OperatorDef.mk "While" [freshName 0] []
          [netArg "cond_net" (NetDef.mk ""
            (modifyLast (fun o => o.withOutputs (o.outputs.set 0 (freshName 0)))
              [OperatorDef.mk "Copy" ["c"] [freshName 1] []])),
           netArg "loop_net" (NetDef.mk "" [])]]⟩ ∧
    ∃ pre, modifyLast (fun o => o.withOutputs (o.outputs.set 0 (freshName 0)))
        [OperatorDef.mk "Copy" ["c"] [freshName 1] []] =
      pre ++ [(OperatorDef.mk "Copy" ["c"] [freshName 1] []).withOutputs [freshName 0]] :=
  c6_while_shape (Tree.ident "c") [] ⟨[("c", "c")], 0, []⟩
    ⟨[("c", "c")], 2, [OperatorDef.mk "Copy" ["c"] [freshName 1] []]⟩
    ⟨[("c", "c")], 2, []⟩
    (OperatorDef.mk "Copy" ["c"] [freshName 1] [])
    (by simp [emit, lookupVar, alookup])
    (by simp [emitStatements])

/-- C8 counterexample: compiling `def w(c): while c: pass` succeeds, and
the compiled function's operations declare the output name `$t0` twice:
once on the loop-control initializing `ConstantFill` in the top graph and
once on the final (sole) operation of the `While` operation's `cond_net`
sub-graph, whose output `emitWhile` overwrites to the loop-control name.
Two distinct operations of one compiled function therefore declare the
same fresh output name, refuting the claim. -/
theorem c8_counterexample :
    compileOps (Def.mk "w" ["c"] [] [Tree.whileStmt (Tree.ident "c") []]) =
      [OperatorDef.mk "ConstantFill" [] [freshName 0]
        [Argument.mk "dtype" (some 2) none [] [] none,
         Argument.mk "value" (some 0) none [] [] none,
         Argument.mk "shape" none none [1] [] none],
       OperatorDef.mk "While" [freshName 0] []
        [netArg "cond_net" (NetDef.mk "" [OperatorDef.mk "Copy" ["c"] [freshName 0] []]),
         netArg "loop_net" (NetDef.mk "" [])]] ∧
    opsOutNames (compileOps (Def.mk "w" ["c"] [] [Tree.whileStmt (Tree.ident "c") []])) =
      [freshName 0, freshName 0] ∧
    ¬ List.Pairwise (fun a b => a ≠ b)
      (opsOutNames (compileOps (Def.mk "w" ["c"] [] [Tree.whileStmt (Tree.ident "c") []]))) := by
  have h1 : compileOps (Def.mk "w" ["c"] [] [Tree.whileStmt (Tree.ident "c") []]) =
      [OperatorDef.mk "ConstantFill" [] [freshName 0]
        [Argument.mk "dtype" (some 2) none [] [] none,
         Argument.mk "value" (some 0) none [] [] none,
         Argument.mk "shape" none none [1] [] none],
       OperatorDef.mk "While" [freshName 0] []
        [netArg "cond_net" (NetDef.mk "" [OperatorDef.mk "Copy" ["c"] [freshName 0] []]),
         netArg "loop_net" (NetDef.mk "" [])]] := by
    simp [compileOps, runDef, bindSelf, initState, emitStatements,
      emitStatement, emitWhile, emitConst, emit, lookupVar, alookup,
      envInsert, modifyLast]
  have h2 : opsOutNames (compileOps (Def.mk "w" ["c"] [] [Tree.whileStmt (Tree.ident "c") []])) =
      [freshName 0, freshName 0] := by
    rw [h1]
    simp [opsOutNames, opOutNames, argsOutNames, argOutNames, netArg]
  refine ⟨h1, h2, ?_⟩
  rw [h2]
  intro hp
  simp at hp

/-- C8 amended: over a successfully compiled function whose assignment
targets are plain user names (no reserved `$t` prefix), the decoded
indices of all fresh-format output names declared by all operations,
nested sub-graphs included but excluding the final operation of each
`cond_net` sub-graph, are pairwise distinct — so no two operations
declare the same fresh output name, except that a while's condition final
operation intentionally shares the loop-control name with the
loop-control initializer (the exception the counterexample exhibits). -/
theorem c8_unique_fresh_outputs (d : Def) (s' : CState)
    (h : runDef d initState = Res.ok () s')
    (ht : noFreshTargetsList d.statements = true) :
    List.Pairwise (fun a b => a ≠ b) (opsFOutExcl s'.curOps) := by
  rw [runDef] at h
  obtain ⟨hm, new, hops, hinc⟩ :=
    emitStatements_spec d.statements _ s' h ht
  rw [hops, bindSelf_curOps, bindSelf_curOps]
  show List.Pairwise _ (opsFOutExcl (([] : List OperatorDef) ++ new))
  rw [List.nil_append]
  exact incIn_pairwise_ne hinc

/-- C8 witness: the amended theorem applied to the compiled
`def w(c): while c: pass`, whose flattened fresh-output indices (with the
condition sub-graph's final operation excluded) are pairwise distinct. -/
theorem c8_unique_fresh_outputs_witness :
    noFreshTargetsList [Tree.whileStmt (Tree.ident "c") []] = true ∧
    List.Pairwise (fun a b => a ≠ b) (opsFOutExcl
      [OperatorDef.mk "ConstantFill" [] [freshName 0]
        [Argument.mk "dtype" (some 2) none [] [] none,
         Argument.mk "value" (some 0) none [] [] none,
         Argument.mk "shape" none none [1] [] none],
       OperatorDef.mk "While" [freshName 0] []
        [netArg "cond_net" (NetDef.mk "" [OperatorDef.mk "Copy" ["c"] [freshName 0] []]),
         netArg "loop_net" (NetDef.mk "" [])]]) :=
  ⟨rfl,
   c8_unique_fresh_outputs (Def.mk "w" ["c"] [] [Tree.whileStmt (Tree.ident "c") []])
     ⟨[("c", "c")], 2,
       [OperatorDef.mk "ConstantFill" [] [freshName 0]
         [Argument.mk "dtype" (some 2) none [] [] none,
          Argument.mk "value" (some 0) none [] [] none,
          Argument.mk "shape" none none [1] [] none],
        OperatorDef.mk "While" [freshName 0] []
         [netArg "cond_net" (NetDef.mk "" [OperatorDef.mk "Copy" ["c"] [freshName 0] []]),
          netArg "loop_net" (NetDef.mk "" [])]]⟩
     (by simp [runDef, bindSelf, initState, emitStatements, emitStatement,
       emitWhile, emitConst, emit, lookupVar, alookup, envInsert, modifyLast])
     rfl⟩

end Caffe2Script
